import Mathlib

/-!
OpenSlides autoupdate service: the restricted id reader and two collection
restricters.

A shallow embedding of

* `internal/autoupdate/ider.go` (`RestrictedIDs` and its five readers),
* `internal/restrict/collection/chat_message.go` (`ChatMessage`),
* `internal/restrict/collection/personal_note.go` (`PersonalNote`),
* `internal/restrict/collection/mock_test.go` (`withPerms`, `jsonAppend`),

together with the parts of the Go standard library they call
(`strconv.Atoi`, `strconv.Itoa`, `strconv.Quote`, `encoding/json`), and a model
of the projection content renderer and of the fetcher, whose tests are
`internal/projector/projector_test.go` and `pkg/datastore/dsfetch/fetch_test.go`.

Conventions.  A Go `int` is an `Int` (64 bit range where parsing can overflow),
a Go `[]byte` or `string` value is a list of characters, a `nil` slice and an
empty slice are both the empty list, and a Go result pair `(v, err)` is a pair
whose second component is `none` for `err == nil`.
-/

namespace Autoupdate

/-! ## Errors -/

/-- The contents of a Go byte slice or string. -/
abbrev Bytes := List Char

/-- Go `error` values produced by the embedded code.  `unknownKey` is the
package variable `ErrUnknownKey`; `errorf` is `fmt.Errorf` without `%w`;
`wrapf` is `fmt.Errorf` with `%w` around `inner`.  `jsonSyntaxErr` is a
`*json.SyntaxError`: `msg` is its message where this development determines it
and `none` where the message is not recorded; the offset is not recorded. -/
inductive GoError where
  | unknownKey
  | errorf (format : String) (args : List String)
  | wrapf (format : String) (args : List String) (inner : GoError)
  | numSyntaxErr (fn : String) (input : String)
  | numRangeErr (fn : String) (input : String)
  | jsonSyntaxErr (msg : Option String)
  | jsonTypeErr (value : String) (target : String)
  | doesNotExist (key : String)
  | other (msg : String)
  deriving DecidableEq

/-- Package variable `ErrUnknownKey = errors.New("key does not exist")`. -/
def ErrUnknownKey : GoError := GoError.unknownKey

/-! ## strconv -/

/-- Largest `uint64`. -/
def maxUint64 : Nat := 2 ^ 64 - 1

/-- Smallest `int64` (and `int` on 64 bit platforms). -/
def minInt64 : Int := -(2 ^ 63)

/-- Largest `int64` (and `int` on 64 bit platforms). -/
def maxInt64 : Int := 2 ^ 63 - 1

/-- ASCII decimal digit test, `'0' <= c && c <= '9'`. -/
def isDigit (c : Char) : Bool := decide (48 ≤ c.toNat ∧ c.toNat ≤ 57)

/-- Value of an ASCII decimal digit, `c - '0'`. -/
def digitVal (c : Char) : Nat := c.toNat - 48

/-- The ASCII digit of `d % 10`. -/
def digitChar (d : Nat) : Char := Char.ofNat (48 + d % 10)

/-- The digit loop of `strconv.ParseUint(s, 10, 64)`: left to right, a
character that is no digit is a syntax error, a value above `maxUint64` is a
range error. -/
def parseUintLoop (fn : String) (s0 : Bytes) : Nat → Bytes → Except GoError Nat
  | n, [] => .ok n
  | n, c :: cs =>
    if isDigit c then
      if n * 10 + digitVal c > maxUint64 then .error (.numRangeErr fn (String.mk s0))
      else parseUintLoop fn s0 (n * 10 + digitVal c) cs
    else .error (.numSyntaxErr fn (String.mk s0))

/-- Go `strconv.ParseUint(s, 10, 64)`; the empty string is a syntax error. -/
def ParseUint (fn : String) (s0 : Bytes) (s : Bytes) : Except GoError Nat :=
  match s with
  | [] => .error (.numSyntaxErr fn (String.mk s0))
  | _ => parseUintLoop fn s0 0 s

/-- Go `strconv.ParseInt(s, 10, 64)`: an optional sign, then `ParseUint`; the
magnitude must fit `int64`.  On an error the returned number is not used by any
caller in this development and is given as `0`. -/
def ParseIntAs (fn : String) (s : Bytes) : Int × Option GoError :=
  match s with
  | [] => (0, some (.numSyntaxErr fn ""))
  | c :: cs =>
    let neg : Bool := c = '-'
    let body : Bytes := if c = '+' ∨ c = '-' then cs else s
    match ParseUint fn s body with
    | .error e => (0, some e)
    | .ok un =>
      if neg then
        if un > 2 ^ 63 then (0, some (.numRangeErr fn (String.mk s)))
        else (-(un : Int), none)
      else
        if un ≥ 2 ^ 63 then (0, some (.numRangeErr fn (String.mk s)))
        else ((un : Int), none)

/-- Go `strconv.ParseInt(s, 10, 64)`. -/
def ParseInt (s : Bytes) : Int × Option GoError := ParseIntAs "ParseInt" s

/-- Go `strconv.Atoi(s)` on a 64 bit platform: `ParseInt(s, 10, 0)` with the
function name of the error set to `Atoi` (the fast path for short inputs
computes the same result). -/
def Atoi (s : Bytes) : Int × Option GoError := ParseIntAs "Atoi" s

/-- Decimal digits of `n`, most significant first, produced as Go's
`formatBits` does by repeated division by ten; `fuel` bounds the number of
digits. -/
def natDigitsAux : Nat → Nat → Bytes → Bytes
  | 0, _, acc => acc
  | fuel + 1, n, acc =>
    if n < 10 then digitChar n :: acc
    else natDigitsAux fuel (n / 10) (digitChar n :: acc)

/-- Decimal text of a natural number. -/
def natDigits (n : Nat) : Bytes := natDigitsAux (n + 1) n []

/-- Go `strconv.Itoa(n)`: the decimal text of `n`, with a leading `-` for a
negative number. -/
def Itoa (n : Int) : Bytes :=
  if n < 0 then '-' :: natDigits n.natAbs else natDigits n.natAbs

/-! ## encoding/json

`json.Unmarshal` first checks that the whole input is one valid JSON text
(`checkValid`) and then stores the value into the target.  It is embedded as a
tokenizer and a parser for the JSON grammar that Go's scanner accepts, followed
by the store rules of `decode.go` for the targets `int`, `string`, `[]int` and
`[]string`. -/

/-- The double quote character. -/
def chQuote : Char := Char.ofNat 34

/-- The backslash character. -/
def chBackslash : Char := Char.ofNat 92

/-- The opening brace. -/
def chLBrace : Char := Char.ofNat 123

/-- The closing brace. -/
def chRBrace : Char := Char.ofNat 125

/-- JSON white space: space, tab, carriage return, line feed. -/
def isSpace (c : Char) : Bool :=
  decide (c.toNat = 32 ∨ c.toNat = 9 ∨ c.toNat = 13 ∨ c.toNat = 10)

/-- JSON tokens.  A number keeps its literal text; a string is already
unquoted. -/
inductive Token where
  | lbrace
  | rbrace
  | lbrack
  | rbrack
  | colon
  | comma
  | tnull
  | ttrue
  | tfalse
  | num (lit : Bytes)
  | str (s : Bytes)
  deriving DecidableEq

/-- A parsed JSON value. -/
inductive Json where
  | null
  | bool (b : Bool)
  | num (lit : Bytes)
  | str (s : Bytes)
  | arr (elems : List Json)
  | obj (members : List (Bytes × Json))

/-- Value of a hexadecimal digit. -/
def hexVal (c : Char) : Option Nat :=
  if isDigit c then some (c.toNat - 48)
  else if 97 ≤ c.toNat ∧ c.toNat ≤ 102 then some (c.toNat - 87)
  else if 65 ≤ c.toNat ∧ c.toNat ≤ 70 then some (c.toNat - 55)
  else none

/-- Value of four hexadecimal digits (`getu4` without the leading `\u`). -/
def hex4 (a b c d : Char) : Option Nat :=
  match hexVal a, hexVal b, hexVal c, hexVal d with
  | some x, some y, some z, some w => some (((x * 16 + y) * 16 + z) * 16 + w)
  | _, _, _, _ => none

/-- Go `utf16.IsSurrogate`. -/
def isSurrogate (v : Nat) : Bool := decide (55296 ≤ v ∧ v < 57344)

/-- Go `utf16.DecodeRune`: the code point of a surrogate pair, or U+FFFD. -/
def decodeSurrogates (hi lo : Nat) : Char :=
  if 55296 ≤ hi ∧ hi < 56320 ∧ 56320 ≤ lo ∧ lo < 57344 then
    Char.ofNat ((hi - 55296) * 1024 + (lo - 56320) + 65536)
  else Char.ofNat 65533

/-- The character of a simple escape `\c`, if `c` is one. -/
def simpleEscape (e : Char) : Option Char :=
  if e = chQuote then some chQuote
  else if e = chBackslash then some chBackslash
  else if e = '/' then some '/'
  else if e = 'b' then some (Char.ofNat 8)
  else if e = 'f' then some (Char.ofNat 12)
  else if e = 'n' then some (Char.ofNat 10)
  else if e = 'r' then some (Char.ofNat 13)
  else if e = 't' then some (Char.ofNat 9)
  else none

/-- One character of a string literal that starts with `c`: the unquoted
character and the input after it.  Control characters below 0x20 and unknown
escapes are rejected as the scanner does; `\uXXXX` escapes are combined as
`unquoteBytes` does. -/
def unescapeAt (c : Char) (cs : Bytes) : Option (Char × Bytes) :=
  if c = chBackslash then
    match cs with
    | [] => none
    | e :: cs1 =>
      if e = 'u' then
        match cs1 with
        | a :: b :: c2 :: d :: cs2 =>
          match hex4 a b c2 d with
          | none => none
          | some v =>
            if isSurrogate v then
              match cs2 with
              | p :: q :: w :: x :: y :: z :: cs3 =>
                match (if p = chBackslash ∧ q = 'u' then hex4 w x y z else none) with
                | some v2 =>
                  if decodeSurrogates v v2 ≠ Char.ofNat 65533 then
                    some (decodeSurrogates v v2, cs3)
                  else some (Char.ofNat 65533, cs2)
                | none => some (Char.ofNat 65533, cs2)
              | _ => some (Char.ofNat 65533, cs2)
            else some (Char.ofNat v, cs2)
        | _ => none
      else
        match simpleEscape e with
        | none => none
        | some ch => some (ch, cs1)
  else if c.toNat < 32 then none
  else some (c, cs)

/-- Reads a string literal after its opening quote: the unquoted contents and
the input after the closing quote.  Every step consumes at least one
character, so `fuel` larger than the length of the input is never used up. -/
def lexString : Nat → Bytes → Option (Bytes × Bytes)
  | 0, _ => none
  | _ + 1, [] => none
  | fuel + 1, c :: cs =>
    if c = chQuote then some ([], cs)
    else
      match unescapeAt c cs with
      | none => none
      | some (ch, rest) => (lexString fuel rest).map (fun r => (ch :: r.1, r.2))

/-- Integer part of a number literal: `0` or a nonzero digit followed by
digits. -/
def lexIntPart : Bytes → Option (Bytes × Bytes)
  | [] => none
  | c :: cs =>
    if c = '0' then some ([c], cs)
    else if isDigit c then some (c :: cs.takeWhile isDigit, cs.dropWhile isDigit)
    else none

/-- Optional fraction of a number literal: `.` and at least one digit. -/
def lexFracPart : Bytes → Option (Bytes × Bytes)
  | [] => some ([], [])
  | c :: cs =>
    if c = '.' then
      if (cs.takeWhile isDigit).isEmpty then none
      else some (c :: cs.takeWhile isDigit, cs.dropWhile isDigit)
    else some ([], c :: cs)

/-- Digits of an exponent: at least one. -/
def lexExpDigits (pre : Bytes) (cs : Bytes) : Option (Bytes × Bytes) :=
  if (cs.takeWhile isDigit).isEmpty then none
  else some (pre ++ cs.takeWhile isDigit, cs.dropWhile isDigit)

/-- Optional exponent of a number literal: `e` or `E`, an optional sign and at
least one digit. -/
def lexExpPart : Bytes → Option (Bytes × Bytes)
  | [] => some ([], [])
  | c :: cs =>
    if c = 'e' ∨ c = 'E' then
      match cs with
      | [] => none
      | s :: cs1 =>
        if s = '+' ∨ s = '-' then lexExpDigits [c, s] cs1
        else lexExpDigits [c] (s :: cs1)
    else some ([], c :: cs)

/-- Reads a number literal: its text and the input after it. -/
def lexNumber (cs : Bytes) : Option (Bytes × Bytes) :=
  let sign : Bytes := match cs with
    | c :: _ => if c = '-' then [c] else []
    | [] => []
  match lexIntPart (cs.drop sign.length) with
  | none => none
  | some (ip, r1) =>
    match lexFracPart r1 with
    | none => none
    | some (fp, r2) =>
      match lexExpPart r2 with
      | none => none
      | some (ep, r3) => some (sign ++ ip ++ fp ++ ep, r3)

/-- The token that starts with the character `c`, or no token for white
space, and the input after it. -/
def nextToken (c : Char) (cs : Bytes) : Option (Option Token × Bytes) :=
  if isSpace c then some (none, cs)
  else if c = '[' then some (some Token.lbrack, cs)
  else if c = ']' then some (some Token.rbrack, cs)
  else if c = chLBrace then some (some Token.lbrace, cs)
  else if c = chRBrace then some (some Token.rbrace, cs)
  else if c = ':' then some (some Token.colon, cs)
  else if c = ',' then some (some Token.comma, cs)
  else if c = chQuote then
    match lexString (cs.length + 1) cs with
    | none => none
    | some (s, rest) => some (some (Token.str s), rest)
  else if c = '-' ∨ isDigit c then
    match lexNumber (c :: cs) with
    | none => none
    | some (lit, rest) => some (some (Token.num lit), rest)
  else if c = 't' then
    match cs with
    | c1 :: c2 :: c3 :: rest =>
      if c1 = 'r' ∧ c2 = 'u' ∧ c3 = 'e' then some (some Token.ttrue, rest) else none
    | _ => none
  else if c = 'f' then
    match cs with
    | c1 :: c2 :: c3 :: c4 :: rest =>
      if c1 = 'a' ∧ c2 = 'l' ∧ c3 = 's' ∧ c4 = 'e' then some (some Token.tfalse, rest)
      else none
    | _ => none
  else if c = 'n' then
    match cs with
    | c1 :: c2 :: c3 :: rest =>
      if c1 = 'u' ∧ c2 = 'l' ∧ c3 = 'l' then some (some Token.tnull, rest) else none
    | _ => none
  else none

/-- Puts a token, if there is one, in front of a list of tokens. -/
def consToken (t : Option Token) (ts : List Token) : List Token :=
  match t with
  | none => ts
  | some tok => tok :: ts

/-- Tokenizer.  Every step consumes at least one character, so `fuel` larger
than the length of the input is never used up. -/
def lex : Nat → Bytes → Option (List Token)
  | 0, _ => none
  | _ + 1, [] => some []
  | fuel + 1, c :: cs =>
    match nextToken c cs with
    | none => none
    | some (t, rest) => (lex fuel rest).map (consToken t)

/-- The tokens of a JSON text. -/
def tokenize (data : Bytes) : Option (List Token) := lex (data.length + 1) data

/-- Go `maxNestingDepth`: arrays and objects may be nested this deep. -/
def maxNestingDepth : Nat := 10000

mutual
/-- Parses one JSON value at nesting depth `depth`. -/
def parseValue : Nat → Nat → List Token → Option (Json × List Token)
  | 0, _, _ => none
  | _ + 1, _, [] => none
  | fuel + 1, depth, t :: ts =>
    match t with
    | .tnull => some (.null, ts)
    | .ttrue => some (.bool true, ts)
    | .tfalse => some (.bool false, ts)
    | .num lit => some (.num lit, ts)
    | .str s => some (.str s, ts)
    | .lbrack =>
      if depth ≥ maxNestingDepth then none
      else
        match ts with
        | .rbrack :: ts1 => some (.arr [], ts1)
        | _ =>
          match parseElems fuel (depth + 1) ts with
          | none => none
          | some (es, ts1) => some (.arr es, ts1)
    | .lbrace =>
      if depth ≥ maxNestingDepth then none
      else
        match ts with
        | .rbrace :: ts1 => some (.obj [], ts1)
        | _ =>
          match parseMembers fuel (depth + 1) ts with
          | none => none
          | some (ms, ts1) => some (.obj ms, ts1)
    | _ => none
/-- Parses the elements of a non-empty array up to and including `]`. -/
def parseElems : Nat → Nat → List Token → Option (List Json × List Token)
  | 0, _, _ => none
  | fuel + 1, depth, ts =>
    match parseValue fuel depth ts with
    | none => none
    | some (v, ts1) =>
      match ts1 with
      | .rbrack :: ts2 => some ([v], ts2)
      | .comma :: ts2 =>
        match parseElems fuel depth ts2 with
        | none => none
        | some (vs, ts3) => some (v :: vs, ts3)
      | _ => none
/-- Parses the members of a non-empty object up to and including the closing
brace. -/
def parseMembers : Nat → Nat → List Token → Option (List (Bytes × Json) × List Token)
  | 0, _, _ => none
  | fuel + 1, depth, ts =>
    match ts with
    | .str k :: .colon :: ts0 =>
      match parseValue fuel depth ts0 with
      | none => none
      | some (v, ts1) =>
        match ts1 with
        | .rbrace :: ts2 => some ([(k, v)], ts2)
        | .comma :: ts2 =>
          match parseMembers fuel depth ts2 with
          | none => none
          | some (ms, ts3) => some ((k, v) :: ms, ts3)
        | _ => none
    | _ => none
end

/-- The value of a JSON text: one value and nothing after it (Go's
`checkValid` followed by the scan of the decoder). -/
def jsonParse (data : Bytes) : Option Json :=
  match tokenize data with
  | none => none
  | some ts =>
    match parseValue (2 * ts.length + 2) 0 ts with
    | some (v, []) => some v
    | _ => none

/-- Store rule of `decode.go` for a target of kind `int` holding `0`: `null`
leaves the target unchanged, a number literal must pass
`strconv.ParseInt(lit, 10, 64)`, every other value is an `UnmarshalTypeError`
and leaves the target unchanged. -/
def decodeInt : Json → Int × Option GoError
  | .null => (0, none)
  | .num lit =>
    match ParseInt lit with
    | (n, none) => (n, none)
    | (_, some _) => (0, some (.jsonTypeErr ("number " ++ String.mk lit) "int"))
  | .bool _ => (0, some (.jsonTypeErr "bool" "int"))
  | .str _ => (0, some (.jsonTypeErr "string" "int"))
  | .arr _ => (0, some (.jsonTypeErr "array" "int"))
  | .obj _ => (0, some (.jsonTypeErr "object" "int"))

/-- Store rule of `decode.go` for a target of kind `string` holding `""`. -/
def decodeString : Json → Bytes × Option GoError
  | .null => ([], none)
  | .str s => (s, none)
  | .num _ => ([], some (.jsonTypeErr "number" "string"))
  | .bool _ => ([], some (.jsonTypeErr "bool" "string"))
  | .arr _ => ([], some (.jsonTypeErr "array" "string"))
  | .obj _ => ([], some (.jsonTypeErr "object" "string"))

/-- The first error of a list of optional errors (`saveError` keeps the first
error and decoding goes on). -/
def firstError : List (Option GoError) → Option GoError
  | [] => none
  | some e :: _ => some e
  | none :: rest => firstError rest

/-- Store rule of `decode.go` for a `nil` slice target: `null` leaves it `nil`,
an array stores every element with the rule of the element type, every other
value is an `UnmarshalTypeError`. -/
def decodeSlice {α : Type} (elem : Json → α × Option GoError) (target : String) :
    Json → List α × Option GoError
  | .null => ([], none)
  | .arr es => ((es.map elem).map Prod.fst, firstError ((es.map elem).map Prod.snd))
  | .num _ => ([], some (.jsonTypeErr "number" target))
  | .str _ => ([], some (.jsonTypeErr "string" target))
  | .bool _ => ([], some (.jsonTypeErr "bool" target))
  | .obj _ => ([], some (.jsonTypeErr "object" target))

/-- The message of the `SyntaxError` that `checkValid` gives for a text that is
not valid JSON: `unexpected end of JSON input` when the text is empty or white
space only, so that its end is reached where a value must begin; the message
of the other syntax errors is not recorded. -/
def syntaxErrorMessage (data : Bytes) : Option String :=
  if data.all isSpace then some "unexpected end of JSON input" else none

/-- Go `json.Unmarshal(data, &v)` for a target holding `zero`: a text that is
not valid JSON is a `SyntaxError` and leaves the target unchanged. -/
def Unmarshal {α : Type} (store : Json → α × Option GoError) (zero : α) (data : Bytes) :
    α × Option GoError :=
  match jsonParse data with
  | none => (zero, some (.jsonSyntaxErr (syntaxErrorMessage data)))
  | some v => store v

/-- Go `json.Unmarshal(data, &value)` with `var value []int`. -/
def UnmarshalIntSlice (data : Bytes) : List Int × Option GoError :=
  Unmarshal (decodeSlice decodeInt "[]int") [] data

/-- Go `json.Unmarshal(data, &value)` with `var value string`. -/
def UnmarshalString (data : Bytes) : Bytes × Option GoError :=
  Unmarshal decodeString [] data

/-- Go `json.Unmarshal(data, &values)` with `var values []string`. -/
def UnmarshalStringSlice (data : Bytes) : List Bytes × Option GoError :=
  Unmarshal (decodeSlice decodeString "[]string") [] data

/-- The elements of a JSON array after the first one, each preceded by a
comma, and the closing bracket. -/
def marshalIntsTail : List Int → Bytes
  | [] => [']']
  | y :: rest => ',' :: (Itoa y ++ marshalIntsTail rest)

/-- Go `json.Marshal(xs)` for a non-nil `[]int`: the JSON array encoding
`[x1,x2,...]`. -/
def MarshalIntSlice : List Int → Bytes
  | [] => ['[', ']']
  | x :: rest => '[' :: (Itoa x ++ marshalIntsTail rest)

/-! ## internal/autoupdate/ider.go

The `context.Context` argument carries cancellation only and is left out. -/

/-- Interface `Restricter`: `Restrict(ctx, uid, keys)` gives an error or a map
from key to restricted value. -/
structure Restricter where
  Restrict : Int → List String → Except GoError (String → Option Bytes)

/-- Type `RestrictedIDs`: implements the IDer interface by using a
restricter. -/
structure RestrictedIDs where
  user : Int
  r : Restricter

/-- Method `decodedRestricter`: one `Restrict` call for the key list `[key]`;
a result without an entry for `key` is `ErrUnknownKey`. -/
def RestrictedIDs.decodedRestricter (i : RestrictedIDs) (key : String) :
    Bytes × Option GoError :=
  match i.r.Restrict i.user [key] with
  | .error err => ([], some (.wrapf "can not restrict key %s: %w" [key] err))
  | .ok data =>
    match data key with
    | none => ([], some ErrUnknownKey)
    | some v => (v, none)

/-- Method `ID` returns the id in the key. -/
def RestrictedIDs.ID (i : RestrictedIDs) (key : String) : Int × Option GoError :=
  match i.decodedRestricter key with
  | (_, some err) => (0, some err)
  | (data, none) =>
    match Atoi data with
    | (_, some _) =>
      (0, some (.errorf "value in key %s is not an int, got: %v" [key, String.mk data]))
    | (id, none) => (id, none)

/-- Method `IDList` returns the ids in the key. -/
def RestrictedIDs.IDList (i : RestrictedIDs) (key : String) : List Int × Option GoError :=
  match i.decodedRestricter key with
  | (_, some err) => ([], some err)
  | (data, none) =>
    match UnmarshalIntSlice data with
    | (_, some err) =>
      ([], some (.wrapf "can not read ids from value `%s`: %w" [String.mk data] err))
    | (value, none) => (value, none)

/-- Method `GenericID` returns a collection-id tuple. -/
def RestrictedIDs.GenericID (i : RestrictedIDs) (key : String) : Bytes × Option GoError :=
  match i.decodedRestricter key with
  | (_, some err) => ([], some err)
  | (data, none) =>
    match UnmarshalString data with
    | (_, some err) =>
      ([], some (.wrapf "can not decode generic value from restricter: %w" [] err))
    | (value, none) => (value, none)

/-- Method `GenericIDs` returns a list of collection-id tuples. -/
def RestrictedIDs.GenericIDs (i : RestrictedIDs) (key : String) :
    List Bytes × Option GoError :=
  match i.decodedRestricter key with
  | (_, some err) => ([], some err)
  | (data, none) =>
    match UnmarshalStringSlice data with
    | (_, some err) =>
      ([], some (.wrapf "can not decode generic-list value from restricter: %w" [] err))
    | (values, none) => (values, none)

/-- Method `Template` returns the strings from a template field. -/
def RestrictedIDs.Template (i : RestrictedIDs) (key : String) : List Bytes × Option GoError :=
  i.GenericIDs key

/-! ## internal/restrict/collection

`dsfetch.Fetch` and `perm.MeetingPermission` are declared outside the embedded
files; they enter as records of the readers the embedded code calls.  A reader
`ds.X_Y(id).Value(ctx)` is the field `X_Y` applied to `id`. -/

/-- Type `perm.TPermission`. -/
abbrev TPermission := String

/-- Constant `perm.ChatCanManage`. -/
def ChatCanManage : TPermission := "chat.can_manage"

/-- Type `perm.Permission`, seen through its methods `Has` and `InGroup`. -/
structure Permission where
  Has : TPermission → Bool
  InGroup : Int → Bool

/-- Type `perm.MeetingPermission`, seen through its methods `UserID` and
`Meeting`. -/
structure MeetingPermission where
  UserID : Int
  Meeting : Int → Except GoError Permission

/-- Type `dsfetch.Fetch`, seen through the typed readers used by `ChatMessage`
and `PersonalNote`. -/
structure Fetch where
  ChatMessage_ChatGroupID : Int → Except GoError Int
  ChatMessage_UserID : Int → Except GoError Int
  ChatGroup_MeetingID : Int → Except GoError Int
  ChatGroup_ReadGroupIDs : Int → Except GoError (List Int)
  PersonalNote_UserID : Int → Except GoError Int
  PersonalNote_MeetingID : Int → Except GoError Int

/-- Type `FieldRestricter`: the allowed ids among the given ids, or an error. -/
abbrev FieldRestricter := Fetch → MeetingPermission → List Int → Except GoError (List Int)

/-- Modelled from the spec: the helper `eachCondition` is called by
`ChatMessage.see` but its body is not among the embedded files.  Following
section 4.3 (a restricter returns the subset of input ids whose value is
visible) it keeps, in order, the ids for which `f` answers true and stops at
the first error. -/
def eachCondition (ids : List Int) (f : Int → Except GoError Bool) :
    Except GoError (List Int) :=
  match ids with
  | [] => .ok []
  | id :: rest =>
    match f id with
    | .error err => .error (.wrapf "checking id %d: %w" [toString id] err)
    | .ok allowed =>
      match eachCondition rest f with
      | .error err => .error err
      | .ok r => .ok (if allowed then id :: r else r)

/-- Adds `id` to the group of `k`, opening a new group when there is none. -/
def addToGroup (k : Int) (id : Int) : List (Int × List Int) → List (Int × List Int)
  | [] => [(k, [id])]
  | (k1, ids) :: rest =>
    if k1 = k then (k1, id :: ids) :: rest else (k1, ids) :: addToGroup k id rest

/-- Reads the relation field of every id and groups the ids by its value;
stops at the first read error. -/
def groupByField (toField : Int → Except GoError Int) :
    List Int → Except GoError (List (Int × List Int))
  | [] => .ok []
  | id :: rest =>
    match toField id with
    | .error err => .error (.wrapf "getting id for element %d: %w" [toString id] err)
    | .ok k =>
      match groupByField toField rest with
      | .error err => .error err
      | .ok gs => .ok (addToGroup k id gs)

/-- Calls `f` once for every group and concatenates the allowed ids; stops at
the first error. -/
def eachGroup (f : Int → List Int → Except GoError (List Int)) :
    List (Int × List Int) → Except GoError (List Int)
  | [] => .ok []
  | (k, ids) :: rest =>
    match f k ids with
    | .error err => .error (.wrapf "restrict for id %d: %w" [toString k] err)
    | .ok allowed =>
      match eachGroup f rest with
      | .error err => .error err
      | .ok r => .ok (allowed ++ r)

/-- Modelled from the spec: the helper `eachRelationField` is called by both
`see` methods but its body is not among the embedded files.  Following section
4.3 (a restricter receives all ids and answers in one pass) it reads the
relation field of every id, calls `f` once for every distinct field value with
the ids that carry it, and concatenates the answers.  The order in which the
groups are visited is not fixed by Go (map iteration); here it is the order of
first occurrence, and the theorems speak of membership only. -/
def eachRelationField (toField : Int → Except GoError Int) (ids : List Int)
    (f : Int → List Int → Except GoError (List Int)) : Except GoError (List Int) :=
  match groupByField toField ids with
  | .error err => .error err
  | .ok gs => eachGroup f gs

/-- Modelled from the spec: `ChatGroup.MeetingID` is called by `ChatMessage`
but declared in a file that is not embedded.  Like `PersonalNote.MeetingID` it
reads the `meeting_id` of the object and reports that the object has a
meeting. -/
def ChatGroup.MeetingID (ds : Fetch) (id : Int) : Except GoError (Int × Bool) :=
  match ds.ChatGroup_MeetingID id with
  | .error err => .error (.wrapf "getting meetingID: %w" [] err)
  | .ok meetingID => .ok (meetingID, true)

/-- Method `ChatMessage.MeetingID` returns the meetingID for the object. -/
def ChatMessage.MeetingID (ds : Fetch) (id : Int) : Except GoError (Int × Bool) :=
  match ds.ChatMessage_ChatGroupID id with
  | .error err => .error (.wrapf "getting chat_group_id: %w" [] err)
  | .ok chatGroupID => ChatGroup.MeetingID ds chatGroupID

/-- The function literal that `ChatMessage.see` passes to `eachRelationField`:
the visible ids among the messages `ids` of the chat group `chatGroupID`. -/
def ChatMessage.seeGroup (ds : Fetch) (mperms : MeetingPermission) (chatGroupID : Int)
    (ids : List Int) : Except GoError (List Int) :=
  match ChatGroup.MeetingID ds chatGroupID with
  | .error err => .error (.wrapf "getting meeting id: %w" [] err)
  | .ok (meetingID, _) =>
    match mperms.Meeting meetingID with
    | .error err => .error (.wrapf "getting permissions: %w" [] err)
    | .ok perms =>
      if perms.Has ChatCanManage then .ok ids
      else
        match ds.ChatGroup_ReadGroupIDs chatGroupID with
        | .error err => .error (.wrapf "getting chat read group ids: %w" [] err)
        | .ok readGroups =>
          if readGroups.any perms.InGroup then .ok ids
          else
            match eachCondition ids (fun chatMessageID =>
                match ds.ChatMessage_UserID chatMessageID with
                | .error err => .error (.wrapf "reading author of chat message: %w" [] err)
                | .ok author => .ok (decide (author = mperms.UserID))) with
            | .error err => .error (.wrapf "checking auther of chat message: %w" [] err)
            | .ok allowed => .ok allowed

/-- Method `ChatMessage.see` (mode A). -/
def ChatMessage.see : FieldRestricter := fun ds mperms chatMessageIDs =>
  eachRelationField ds.ChatMessage_ChatGroupID chatMessageIDs (ChatMessage.seeGroup ds mperms)

/-- Method `ChatMessage.Modes` gives the FieldRestricter for a
restriction mode; `none` is Go's `nil`. -/
def ChatMessage.Modes (mode : String) : Option FieldRestricter :=
  if mode = "A" then some ChatMessage.see else none

/-- Method `PersonalNote.MeetingID` returns the meetingID for the object. -/
def PersonalNote.MeetingID (ds : Fetch) (id : Int) : Except GoError (Int × Bool) :=
  match ds.PersonalNote_MeetingID id with
  | .error err => .error (.wrapf "getting meetingID: %w" [] err)
  | .ok meetingID => .ok (meetingID, true)

/-- Method `PersonalNote.see` (mode A). -/
def PersonalNote.see : FieldRestricter := fun ds mperms personalNoteIDs =>
  eachRelationField ds.PersonalNote_UserID personalNoteIDs (fun userID ids =>
    if mperms.UserID = userID then .ok ids else .ok [])

/-- Method `PersonalNote.Modes` returns the field restriction for each mode;
`none` is Go's `nil`. -/
def PersonalNote.Modes (mode : String) : Option FieldRestricter :=
  if mode = "A" then some PersonalNote.see else none

/-- Method `PersonalNote.SuperAdmin` restricts the super admin. -/
def PersonalNote.SuperAdmin (mode : String) : Option FieldRestricter :=
  PersonalNote.Modes mode

/-! ## Concrete states used in the examples -/

/-- Error of a required reader whose object does not exist. -/
def notThere (key : String) : GoError := GoError.doesNotExist key

/-- A datastore with one chat message: `chat_message/1` written by user 1 in
`chat_group/1`, which belongs to meeting 1 and has no read groups. -/
def revokeDs : Fetch where
  ChatMessage_ChatGroupID := fun id =>
    if id = 1 then .ok 1 else .error (notThere "chat_message/chat_group_id")
  ChatMessage_UserID := fun id =>
    if id = 1 then .ok 1 else .error (notThere "chat_message/user_id")
  ChatGroup_MeetingID := fun id =>
    if id = 1 then .ok 1 else .error (notThere "chat_group/meeting_id")
  ChatGroup_ReadGroupIDs := fun _ => .ok []
  PersonalNote_UserID := fun _ => .error (notThere "personal_note/user_id")
  PersonalNote_MeetingID := fun _ => .error (notThere "personal_note/meeting_id")

/-- A user without any permission who is in no group. -/
def noPermission : Permission := ⟨fun _ => false, fun _ => false⟩

/-- A user who holds `chat.can_manage` and nothing else and is in no group. -/
def onlyChatManage : Permission := ⟨fun p => decide (p = ChatCanManage), fun _ => false⟩

/-- User 1 holding `chat.can_manage` (and nothing else) in every meeting, in no
group. -/
def revokeBefore : MeetingPermission where
  UserID := 1
  Meeting := fun _ => .ok onlyChatManage

/-- User 1 after the permission was revoked: no permission, in no group. -/
def revokeAfter : MeetingPermission where
  UserID := 1
  Meeting := fun _ => .ok noPermission

/-- User 2 with no permission and in no group. -/
def strangerAfter : MeetingPermission where
  UserID := 2
  Meeting := fun _ => .ok noPermission

/-- User 2 holding `chat.can_manage` in every meeting, in no group. -/
def strangerBefore : MeetingPermission where
  UserID := 2
  Meeting := fun _ => .ok onlyChatManage

/-- A datastore with three personal notes: notes 1 and 3 belong to user 1,
note 2 belongs to user 2. -/
def notesDs : Fetch where
  ChatMessage_ChatGroupID := fun _ => .error (notThere "chat_message/chat_group_id")
  ChatMessage_UserID := fun _ => .error (notThere "chat_message/user_id")
  ChatGroup_MeetingID := fun _ => .error (notThere "chat_group/meeting_id")
  ChatGroup_ReadGroupIDs := fun _ => .error (notThere "chat_group/read_group_ids")
  PersonalNote_UserID := fun id =>
    if id = 1 ∨ id = 3 then .ok 1
    else if id = 2 then .ok 2
    else .error (notThere "personal_note/user_id")
  PersonalNote_MeetingID := fun _ => .ok 1

/-- A restricter that answers every request with the one entry `(k, v)`. -/
def singleEntry (k : String) (v : Bytes) : Restricter where
  Restrict := fun _ _ => .ok (fun key => if key = k then some v else none)


/-- A datastore with chat messages 1 and 2 in `chat_group/1` of meeting 1,
written by users 1 and 2, and personal notes 1 and 2 of users 1 and 2. -/
def mixedDs : Fetch where
  ChatMessage_ChatGroupID := fun _ => .ok 1
  ChatMessage_UserID := fun id => .ok id
  ChatGroup_MeetingID := fun _ => .ok 1
  ChatGroup_ReadGroupIDs := fun _ => .ok [7]
  PersonalNote_UserID := fun id => .ok id
  PersonalNote_MeetingID := fun _ => .ok 1

/-- All reads that `ChatMessage.see` can make for message `m` succeed. -/
def ChatMessage.readable (ds : Fetch) (mperms : MeetingPermission) (m : Int) : Prop :=
  ∃ g mid perms rg a, ds.ChatMessage_ChatGroupID m = .ok g ∧
    ds.ChatGroup_MeetingID g = .ok mid ∧ mperms.Meeting mid = .ok perms ∧
    ds.ChatGroup_ReadGroupIDs g = .ok rg ∧ ds.ChatMessage_UserID m = .ok a

/-- The rule in the words of the documentation of `ChatMessage`: a user can see
a chat_message if they have the permission chat.can_manage or they are in the
respective chat_group/read_group_ids or they have written the chat_message. -/
def ChatMessage.canSee (ds : Fetch) (mperms : MeetingPermission) (m : Int) : Bool :=
  match ds.ChatMessage_ChatGroupID m with
  | .error _ => false
  | .ok g =>
    match ds.ChatGroup_MeetingID g with
    | .error _ => false
    | .ok mid =>
      match mperms.Meeting mid with
      | .error _ => false
      | .ok perms =>
        perms.Has ChatCanManage ||
        (match ds.ChatGroup_ReadGroupIDs g with
          | .error _ => false
          | .ok rg => rg.any perms.InGroup) ||
        (match ds.ChatMessage_UserID m with
          | .error _ => false
          | .ok a => decide (a = mperms.UserID))

/-! ## Notions used to state the claims on decoding -/

/-- Value of a list of decimal digits read left to right, starting from
`acc`. -/
def digitsValue (acc : Nat) (ds : Bytes) : Nat :=
  ds.foldl (fun a c => a * 10 + digitVal c) acc

/-- A decimal integer as text: an optional sign followed by one or more
decimal digits. -/
def isDecimalInteger (s : Bytes) : Bool :=
  match s with
  | [] => false
  | c :: cs =>
    if c = '+' ∨ c = '-' then !cs.isEmpty && cs.all isDigit
    else s.all isDigit

/-- The JSON text is the literal `null` (white space around it allowed). -/
def isJsonNull (data : Bytes) : Bool :=
  match jsonParse data with
  | some .null => true
  | _ => false

/-- A JSON value that `decodeInt` stores without an error: `null` or a number
literal that is an integer in the range of `int`. -/
def isIntOrNull : Json → Bool
  | .null => true
  | .num lit => (ParseInt lit).2.isNone
  | _ => false

/-- The JSON text is an array whose elements are integers in the range of
`int` or `null`. -/
def isJsonArrayOfIntOrNull (data : Bytes) : Bool :=
  match jsonParse data with
  | some (.arr es) => es.all isIntOrNull
  | _ => false

/-- The tokens of `marshalIntsTail`. -/
def tailTokens : List Int → List Token
  | [] => [Token.rbrack]
  | y :: rest => Token.comma :: Token.num (Itoa y) :: tailTokens rest

/-- The JSON literal `null` as text. -/
def nullText : Bytes := ['n', 'u', 'l', 'l']

/-! ## internal/projector: the content of a projection

The package `projector` is not among the embedded files; its tests are.  The
definitions of this section follow section 4.5 of the specification, and the
slide renderers are the ones of `testSlides` in `projector_test.go`. -/

/-- The text form `collection/id/field` of a datastore key (`dskey.Key`). -/
abbrev Key := Bytes

/-- A state of the datastore: the value of every key, `none` for a key that
does not exist. -/
abbrev Datastore := Key → Option Bytes

/-- The text of a JSON string whose characters need no escaping. -/
def quoted (s : String) : Bytes := chQuote :: (s.toList ++ [chQuote])

/-- A run-time panic, given as an error value. -/
def goPanic (msg : String) : GoError := GoError.other ("panic: " ++ msg)

/-- Modelled from the spec: type `projector.Projection`, the `content_object_id`,
`type` and metadata of a projection that the renderer reads (section 4.5,
step 1).  The field `Typ` is the Go field `Type`. -/
structure Projection where
  ID : Int
  Typ : Bytes
  ContentObjectID : Bytes
  MeetingID : Int
  Options : Option Bytes

/-- A slide renderer: from the datastore and the projection to the bytes of
the slide or an error. -/
abbrev Slider := Datastore → Projection → Bytes × Option GoError

/-- Modelled from the spec: type `projector.SlideStore`, the registry of slide
renderers keyed by name (section 4.5). -/
structure SlideStore where
  sliders : List (Bytes × Slider)

/-- Modelled from the spec: `RegisterSliderFunc` puts a renderer into the
registry under a name; a later registration of the same name wins. -/
def SlideStore.RegisterSliderFunc (s : SlideStore) (name : String) (f : Slider) : SlideStore :=
  ⟨(name.toList, f) :: s.sliders⟩

/-- Modelled from the spec: `GetSlider` is the renderer registered under the
name, `none` (Go `nil`) when there is none. -/
def SlideStore.GetSlider (s : SlideStore) (name : Bytes) : Option Slider :=
  match s.sliders.find? (fun e => decide (e.1 = name)) with
  | none => none
  | some e => some e.2

/-- Function `testSlides` of `projector_test.go`.  The slide `projection`
calls `json.Marshal` on the projection, whose type is declared outside the
embedded files; the encoding enters as the parameter `marshal`.  The slide
`test_model` reads `test_model/1/field` through the fetcher; a key that does
not exist leaves `field` nil. -/
def testSlides (marshal : Projection → Bytes × Option GoError) : SlideStore :=
  ((SlideStore.mk []
    |>.RegisterSliderFunc "test1" (fun _ _ =>
      (chLBrace :: (quoted "value" ++ ':' :: (quoted "abc" ++ [chRBrace])), none)))
    |>.RegisterSliderFunc "test_model" (fun fetch _ =>
      match fetch "test_model/1/field".toList with
      | none => (chLBrace :: (quoted "value" ++ ':' :: (quoted "test_model" ++ [chRBrace])), none)
      | some field =>
        if field.length < 2 then ([], some (goPanic "slice bounds out of range"))
        else
          (chLBrace :: (quoted "value" ++ ':' :: chQuote ::
            ("calculated with ".toList ++ (field.drop 1).take (field.length - 2) ++
              [chQuote, chRBrace])), none)))
    |>.RegisterSliderFunc "projection" (fun _ p => marshal p)

/-- The key `projection/<id>/<field>`. -/
def projectionKey (id : Int) (field : String) : Key :=
  "projection/".toList ++ Itoa id ++ '/' :: field.toList

/-- Reads an `int` field of an object: a key that does not exist leaves the
zero value. -/
def readInt (ds : Datastore) (key : Key) : Int × Option GoError :=
  match ds key with
  | none => (0, none)
  | some v => Unmarshal decodeInt 0 v

/-- Reads a `string` field of an object: a key that does not exist leaves the
zero value. -/
def readString (ds : Datastore) (key : Key) : Bytes × Option GoError :=
  match ds key with
  | none => ([], none)
  | some v => UnmarshalString v

/-- Modelled from the spec: step 1 of section 4.5, the renderer reads
`content_object_id`, `type` and the metadata `id`, `meeting_id` and `options`
of the projection; the first value that does not decode is an error. -/
def readProjection (ds : Datastore) (id : Int) : Projection × Option GoError :=
  let pid := readInt ds (projectionKey id "id")
  let typ := readString ds (projectionKey id "type")
  let coid := readString ds (projectionKey id "content_object_id")
  let mid := readInt ds (projectionKey id "meeting_id")
  (⟨pid.1, typ.1, coid.1, mid.1, ds (projectionKey id "options")⟩,
    firstError [pid.2, typ.2, coid.2, mid.2])

/-- The collection part of a generic id `collection/id`: the text before the
first `/`, `none` when there is no `/`. -/
def collectionPart : Bytes → Option Bytes
  | [] => none
  | c :: cs =>
    if c = '/' then some []
    else
      match collectionPart cs with
      | none => none
      | some r => some (c :: r)

/-- Modelled from the spec: step 2 of section 4.5, the name of the slide
renderer is the `type` if present, else the collection part of
`content_object_id`. -/
def Projection.slideName (p : Projection) : Option Bytes :=
  if p.Typ ≠ [] then some p.Typ else collectionPart p.ContentObjectID

/-- Modelled from the spec: step 3 of section 4.5 and section 7, the content
of a failed rendering is a JSON object with the single member `error`. -/
def errorContent (msg : String) : Bytes :=
  chLBrace :: (quoted "error" ++ ':' :: (quoted msg ++ [chRBrace]))

/-- Modelled from the spec: the content of a rendered slide.  Scenarios 2 and 3
of section 8 and the tests show the object of the slide renderer with the
member `collection`, the name of the slide, in front of its members. -/
def slideContent (name : Bytes) (bs : Bytes) : Bytes :=
  chLBrace :: (quoted "collection" ++ ':' :: chQuote :: (name ++ chQuote :: ',' :: bs.drop 1))

/-- Modelled from the spec: steps 3 and 4 of section 4.5 for the slide name
`name`: without a renderer of that name the content is an error object,
otherwise it is the content of the rendered slide. -/
def renderSlide (ds : Datastore) (slides : SlideStore) (name : Bytes) (p : Projection) : Bytes :=
  match slides.GetSlider name with
  | none => errorContent "unknown slide"
  | some slider =>
    match slider ds p with
    | (_, some _) => errorContent "calculating slide failed"
    | (bs, none) => slideContent name bs

/-- Modelled from the spec: the computed field `projection/<id>/content` of
section 4.5, registered by `projector.Register`, which is not among the
embedded files.  A projection that does not exist has no content (scenario 1
of section 8); otherwise the renderer reads the projection, selects the slide
renderer and gives its content, or an error object. -/
def projectionContent (ds : Datastore) (slides : SlideStore) (id : Int) : Option Bytes :=
  match ds (projectionKey id "id") with
  | none => none
  | some _ =>
    match readProjection ds id with
    | (_, some _) => some (errorContent "loading projection failed")
    | (p, none) =>
      match p.slideName with
      | none => some (errorContent "invalid content_object_id")
      | some name => some (renderSlide ds slides name p)

/-- The datastore of `TestProjectionFromContentObject`. -/
def dsFromContentObject : Datastore := fun key =>
  if key = "projection/1/id".toList then some ['1']
  else if key = "projection/1/content_object_id".toList then some (quoted "test_model/1")
  else none

/-- The datastore of `TestProjectionFromType`. -/
def dsFromType : Datastore := fun key =>
  if key = "projection/1/id".toList then some ['1']
  else if key = "projection/1/content_object_id".toList then some (quoted "meeting/1")
  else if key = "projection/1/type".toList then some (quoted "test1")
  else none

/-- An encoding of projections that is not used by the slides `test1` and
`test_model`. -/
def noMarshal : Projection → Bytes × Option GoError := fun _ => ([], none)

/-- The JSON text of an object with the members `collection` and `value`. -/
def collectionValue (collection value : String) : Bytes :=
  chLBrace :: (quoted "collection" ++ ':' :: (quoted collection ++ ',' ::
    (quoted "value" ++ ':' :: (quoted value ++ [chRBrace]))))

/-! ## pkg/datastore/dsfetch: the fetcher

The package `dsfetch` is not among the embedded files; its tests are.  The
definitions of this section follow section 4.2 of the specification. -/

namespace Dsfetch

/-- A decoded value in the typed slot of a caller. -/
inductive SlotValue where
  | int (n : Int)
  | str (s : Bytes)
  | ints (ns : List Int)
  | strs (ss : List Bytes)
  deriving DecidableEq

/-- Modelled from the spec: a request recorded by `Lazy`: the key, whether the
accessor is required, the zero value of the slot and the decoding into the
slot. -/
structure Request where
  key : Key
  required : Bool
  zero : SlotValue
  decode : Bytes → SlotValue × Option GoError

/-- Modelled from the spec: type `dsfetch.Fetch` of section 4.2, a batching
layer over a getter: the getter `Get(ctx, keys)`, the requests recorded by
`Lazy` and not yet executed, and the keys touched so far. -/
structure Fetch where
  getter : List Key → Except GoError Datastore
  requested : List Request
  touched : List Key

/-- Modelled from the spec: `dsfetch.New` makes a fetcher without recorded
requests. -/
def New (getter : List Key → Except GoError Datastore) : Fetch := ⟨getter, [], []⟩

/-- Modelled from the spec: a typed accessor such as `Topic_Title(id)`: the key
of the field, whether the field is required, and the decoding of the stored
bytes into the requested shape. -/
structure Accessor where
  key : Int → Key
  required : Bool
  zero : SlotValue
  decode : Bytes → SlotValue × Option GoError

/-- Modelled from the spec: `Lazy(&out)` records a request; nothing is read. -/
def Accessor.Lazy (a : Accessor) (id : Int) (f : Fetch) : Fetch :=
  { f with requested := f.requested ++ [⟨a.key id, a.required, a.zero, a.decode⟩] }

/-- Modelled from the spec: the outcome of one request on the fetched data:
`DoesNotExist(key)` when a required accessor resolves to absent,
`Decode(key, cause)` when the stored bytes do not parse as the requested
shape. -/
def Request.execute (data : Datastore) (r : Request) : SlotValue × Option GoError :=
  match data r.key with
  | none => (r.zero, if r.required then some (GoError.doesNotExist (String.mk r.key)) else none)
  | some v =>
    match r.decode v with
    | (_, some e) => (r.zero, some (GoError.wrapf "decoding key %s: %w" [String.mk r.key] e))
    | (sv, none) => (sv, none)

/-- Modelled from the spec: `Execute(ctx)` performs one batched `Get` for all
recorded keys, decodes each into its slot and returns the first decoding or
source error; the recorded requests are used up and their keys are touched,
so that a failed request is not executed again (`TestRequestTwoWithErrors`).
Without recorded requests nothing is read (`TestRequestEmpty`). -/
def Fetch.Execute (f : Fetch) : (List SlotValue × Option GoError) × Fetch :=
  match f.requested with
  | [] => (([], none), f)
  | r :: rs =>
    match f.getter ((r :: rs).map Request.key) with
    | .error e =>
      ((((r :: rs).map Request.zero), some (GoError.wrapf "fetching all requested keys: %w" [] e)),
        { f with requested := [] })
    | .ok data =>
      ((((r :: rs).map (Request.execute data)).map Prod.fst,
          firstError (((r :: rs).map (Request.execute data)).map Prod.snd)),
        { f with requested := [], touched := f.touched ++ (r :: rs).map Request.key })

/-- Modelled from the spec: `Value(ctx)` on a typed accessor is `Lazy` followed
by `Execute`; its value is the slot of the accessor. -/
def Accessor.Value (a : Accessor) (id : Int) (f : Fetch) : (SlotValue × Option GoError) × Fetch :=
  match (a.Lazy id f).Execute with
  | ((_, some e), f1) => ((a.zero, some e), f1)
  | ((slots, none), f1) => ((slots.getLastD a.zero, none), f1)

/-- The key `collection/<id>/field`. -/
def fieldKey (collection : String) (id : Int) (field : String) : Key :=
  collection.toList ++ '/' :: (Itoa id ++ '/' :: field.toList)

/-- Decoding of a stored value into a `string` slot. -/
def decodeStr (v : Bytes) : SlotValue × Option GoError :=
  ((SlotValue.str (UnmarshalString v).1), (UnmarshalString v).2)

/-- The required accessor `Topic_Title` used by `TestRequestTwoWithErrors`. -/
def Topic_Title : Accessor := ⟨fun id => fieldKey "topic" id "title", true, SlotValue.str [], decodeStr⟩

/-- The required accessor `User_Username` used by
`TestFetch_required_field_when_object_does_not_exist`. -/
def User_Username : Accessor :=
  ⟨fun id => fieldKey "user" id "username", true, SlotValue.str [], decodeStr⟩

/-- The stub datastore of `TestRequestTwoWithErrors`: `topic/1/title: foo`. -/
def stubTopic : List Key → Except GoError Datastore := fun _ =>
  .ok (fun key => if key = "topic/1/title".toList then some (quoted "foo") else none)

/-- The empty stub datastore. -/
def stubEmpty : List Key → Except GoError Datastore := fun _ => .ok (fun _ => none)

end Dsfetch

/-- Go `errors.As(err, &DoesNotExistError)`: the error or an error it wraps
is a `DoesNotExistError`. -/
def GoError.isDoesNotExist : GoError → Bool
  | .doesNotExist _ => true
  | .wrapf _ _ inner => inner.isDoesNotExist
  | _ => false

/-! ## internal/restrict/collection/mock_test.go

The test helpers build datastore contents.  `dskey.MustKey` and
`unicode.IsPrint` are declared outside the embedded files and enter through
`TestEnv`. -/

/-- What the helpers use from outside the embedded files: which key texts
`dskey.MustKey` accepts (it panics on the others), and which characters above
ASCII `unicode.IsPrint` holds for (used by the verb `%q`). -/
structure TestEnv where
  validKey : Key → Bool
  printable : Char → Bool

/-- Go `dskey.MustKey`: the key of a valid key text, a panic otherwise. -/
def MustKey (env : TestEnv) (k : Key) : Except GoError Key :=
  if env.validKey k then .ok k else .error (goPanic "invalid key")

/-- Type `testData`.  A lookup `data[key]` that gives `nil` is `none`. -/
structure testData where
  name : String
  data : Key → Option Bytes
  expect : List Int
  expectOne : Bool
  requestUserID : Int
  elementIDs : List Int

/-- A lower case hexadecimal digit. -/
def lowerHex (n : Nat) : Char :=
  if n % 16 < 10 then Char.ofNat (48 + n % 16) else Char.ofNat (87 + n % 16)

/-- One character of Go `strconv.Quote` (the verb `%q` on a string). -/
def quoteRune (env : TestEnv) (c : Char) : Bytes :=
  if c = chQuote ∨ c = chBackslash then [chBackslash, c]
  else if (32 ≤ c.toNat ∧ c.toNat < 127) ∨ (128 ≤ c.toNat ∧ env.printable c = true) then [c]
  else if c.toNat = 7 then [chBackslash, 'a']
  else if c.toNat = 8 then [chBackslash, 'b']
  else if c.toNat = 12 then [chBackslash, 'f']
  else if c.toNat = 10 then [chBackslash, 'n']
  else if c.toNat = 13 then [chBackslash, 'r']
  else if c.toNat = 9 then [chBackslash, 't']
  else if c.toNat = 11 then [chBackslash, 'v']
  else if c.toNat < 32 ∨ c.toNat = 127 then
    [chBackslash, 'x', lowerHex (c.toNat / 16), lowerHex c.toNat]
  else if c.toNat < 65536 then
    [chBackslash, 'u', lowerHex (c.toNat / 4096), lowerHex (c.toNat / 256),
      lowerHex (c.toNat / 16), lowerHex c.toNat]
  else
    [chBackslash, 'U', lowerHex (c.toNat / 268435456), lowerHex (c.toNat / 16777216),
      lowerHex (c.toNat / 1048576), lowerHex (c.toNat / 65536), lowerHex (c.toNat / 4096),
      lowerHex (c.toNat / 256), lowerHex (c.toNat / 16), lowerHex c.toNat]

/-- Go `strconv.Quote(s)`, the text that `fmt.Sprintf("%q", s)` gives for a
string. -/
def Quote (env : TestEnv) (s : Bytes) : Bytes :=
  chQuote :: ((s.map (quoteRune env)).flatten ++ [chQuote])

/-- Function `jsonAppend`: decodes `value` as `[]int` unless it is nil, appends
the elements and encodes the list; a value that does not decode is a panic.  A
nil list is encoded as `null`. -/
def jsonAppend (value : Option Bytes) (element : List Int) : Except GoError Bytes :=
  match value with
  | none => .ok (if element = [] then nullText else MarshalIntSlice element)
  | some v =>
    match UnmarshalIntSlice v with
    | (_, some err) => .error err
    | (list, none) =>
      .ok (if isJsonNull v = true ∧ element = [] then nullText
        else MarshalIntSlice (list ++ element))

/-- The text `[` followed by every permission as `%q,`. -/
def permStringOpen (env : TestEnv) (perms : List TPermission) : Bytes :=
  '[' :: (perms.map (fun p => Quote env p.toList ++ [','])).flatten

/-- The value that `withPerms` stores under the permissions key:
`permString[:len(permString)-1] + "]"`. -/
def permString (env : TestEnv) (perms : List TPermission) : Bytes :=
  (permStringOpen env perms).take ((permStringOpen env perms).length - 1) ++ [']']

/-- The key `user/1/group_$<meetingID>_ids` of `withPerms`. -/
def groupsKeyText (meetingID : Int) : Key :=
  "user/1/group_$".toList ++ Itoa meetingID ++ "_ids".toList

/-- The key `group/<groupID>/<field>` of `withPerms`. -/
def groupKeyText (groupID : Int) (field : String) : Key :=
  "group/".toList ++ Itoa groupID ++ '/' :: field.toList

/-- The key `meeting/<meetingID>/id` of `withPerms`. -/
def meetingIDKeyText (meetingID : Int) : Key :=
  "meeting/".toList ++ Itoa meetingID ++ "/id".toList

/-- The assignment `m[key] = value` on a map. -/
def setKey (m : Key → Option Bytes) (key : Key) (value : Bytes) : Key → Option Bytes :=
  fun k => if k = key then some value else m k

/-- Function `withPerms`: the option it returns, applied to the test data.  A
panic of `dskey.MustKey` or of `jsonAppend` is the error. -/
def withPerms (env : TestEnv) (meetingID : Int) (perms : List TPermission) (td : testData) :
    Except GoError testData :=
  let groupID : Int := 1000 + 337
  match MustKey env (groupsKeyText meetingID) with
  | .error e => .error e
  | .ok groupsKey =>
    match MustKey env (groupKeyText groupID "id") with
    | .error e => .error e
    | .ok groupIDKey =>
      match MustKey env (groupKeyText groupID "permissions") with
      | .error e => .error e
      | .ok groupPermissionKey =>
        match MustKey env (meetingIDKeyText meetingID) with
        | .error e => .error e
        | .ok meetingIDKey =>
          match jsonAppend (td.data groupsKey) [groupID] with
          | .error e => .error e
          | .ok groups =>
            let d1 := setKey td.data groupsKey groups
            let d2 := setKey d1 groupIDKey (Itoa groupID)
            let d3 := setKey d2 groupPermissionKey (permString env perms)
            let d4 := setKey d3 meetingIDKey (Itoa meetingID)
            .ok { td with data := d4 }

/-- Function `withRequestUser`: the option it returns, applied to the test
data. -/
def withRequestUser (userID : Int) (td : testData) : testData :=
  { td with requestUserID := userID }

/-- Function `withElementID`: the option it returns, applied to the test
data. -/
def withElementID (id : Int) (td : testData) : testData :=
  { td with elementIDs := [id] }

/-- An environment in which every key text is valid and no character above
ASCII is printable. -/
def plainEnv : TestEnv := ⟨fun _ => true, fun _ => false⟩

/-- The test data that `testCase` starts from, with an empty datastore. -/
def emptyTestData : testData := ⟨"", fun _ => none, [], false, 1, [1]⟩

/-! ## internal/autoupdate/ider.go with the calls of the restricter made explicit

A restricter may keep state, and a call of `Restrict` is an effect on it.  The
definitions above take the answers of the restricter as a function; here the
same methods pass the state of the restricter along, so that the calls they
make can be counted. -/

namespace Traced

/-- Interface `Restricter` with a state `σ` of the implementation: a call
`Restrict(ctx, uid, keys)` in a state gives its answer and the state after the
call. -/
structure Restricter (σ : Type) where
  Restrict : Int → List String → σ → Except GoError (String → Option Bytes) × σ

/-- Type `RestrictedIDs` over a restricter with state. -/
structure RestrictedIDs (σ : Type) where
  user : Int
  r : Restricter σ

/-- Method `decodedRestricter`: one `Restrict` call for the key list `[key]`;
a result without an entry for `key` is `ErrUnknownKey`. -/
def RestrictedIDs.decodedRestricter {σ : Type} (i : RestrictedIDs σ) (key : String) (s : σ) :
    (Bytes × Option GoError) × σ :=
  match i.r.Restrict i.user [key] s with
  | (.error err, s1) => (([], some (.wrapf "can not restrict key %s: %w" [key] err)), s1)
  | (.ok data, s1) =>
    match data key with
    | none => (([], some ErrUnknownKey), s1)
    | some v => ((v, none), s1)

/-- Method `GenericIDs` returns a list of collection-id tuples. -/
def RestrictedIDs.GenericIDs {σ : Type} (i : RestrictedIDs σ) (key : String) (s : σ) :
    (List Bytes × Option GoError) × σ :=
  match i.decodedRestricter key s with
  | ((_, some err), s1) => (([], some err), s1)
  | ((data, none), s1) =>
    match UnmarshalStringSlice data with
    | (_, some err) =>
      (([], some (.wrapf "can not decode generic-list value from restricter: %w" [] err)), s1)
    | (values, none) => ((values, none), s1)

/-- Method `Template` returns the strings from a template field. -/
def RestrictedIDs.Template {σ : Type} (i : RestrictedIDs σ) (key : String) (s : σ) :
    (List Bytes × Option GoError) × σ :=
  i.GenericIDs key s

/-- A restricter that answers as `r` does and keeps the list of the calls made
to it, oldest first, as its state. -/
def logging (r : Autoupdate.Restricter) : Restricter (List (Int × List String)) :=
  ⟨fun uid keys log => (r.Restrict uid keys, log ++ [(uid, keys)])⟩

/-- A restricter that counts the calls made to it and answers the first call
with `first` and every later call with `later`. -/
def firstThen (first later : Except GoError (String → Option Bytes)) : Restricter Nat :=
  ⟨fun _ _ n => (if n = 0 then first else later, n + 1)⟩

/-- The answers of a restricter with state while its state is `s`. -/
def frozen {σ : Type} (r : Restricter σ) (s : σ) : Autoupdate.Restricter :=
  ⟨fun uid keys => (r.Restrict uid keys s).1⟩

end Traced

/-- A character that a JSON string literal holds as it is: no control
character, no double quote, no backslash. -/
def simpleChar (c : Char) : Bool :=
  decide (32 ≤ c.toNat ∧ c ≠ chQuote ∧ c ≠ chBackslash)

/-- The elements of a JSON array of strings after the first one, each in
double quotes and preceded by a comma, and the closing bracket. -/
def stringsTail : List Bytes → Bytes
  | [] => [']']
  | t :: rest => ',' :: chQuote :: (t ++ chQuote :: stringsTail rest)

/-- The JSON array text whose elements are the given strings in double
quotes. -/
def jsonStringArray : List Bytes → Bytes
  | [] => ['[', ']']
  | t :: rest => '[' :: chQuote :: (t ++ chQuote :: stringsTail rest)

/-- The tokens of `stringsTail`. -/
def strTailTokens : List Bytes → List Token
  | [] => [Token.rbrack]
  | t :: rest => Token.comma :: Token.str t :: strTailTokens rest

/-! ## Grouping helpers -/

theorem addToGroup_mem_cases (k id : Int) (gs : List (Int × List Int)) (p : Int × List Int)
    (hp : p ∈ addToGroup k id gs) :
    p ∈ gs ∨ (p.1 = k ∧ ∃ old, p.2 = id :: old ∧ ∀ x ∈ old, ∃ q ∈ gs, q.1 = k ∧ x ∈ q.2) := by
  induction gs with
  | nil =>
    simp only [addToGroup, List.mem_singleton] at hp
    subst hp
    exact Or.inr ⟨rfl, [], rfl, by simp⟩
  | cons g rest ih =>
    obtain ⟨k1, ids1⟩ := g
    simp only [addToGroup] at hp
    by_cases hk : k1 = k
    · rw [if_pos hk] at hp
      rcases List.mem_cons.mp hp with h | h
      · subst h
        refine Or.inr ⟨hk, ids1, rfl, ?_⟩
        intro x hx
        exact ⟨(k1, ids1), List.mem_cons_self _ _, hk, hx⟩
      · exact Or.inl (List.mem_cons_of_mem _ h)
    · rw [if_neg hk] at hp
      rcases List.mem_cons.mp hp with h | h
      · subst h
        exact Or.inl (List.mem_cons_self _ _)
      · rcases ih h with h1 | ⟨h1, old, h2, h3⟩
        · exact Or.inl (List.mem_cons_of_mem _ h1)
        · refine Or.inr ⟨h1, old, h2, ?_⟩
          intro x hx
          obtain ⟨q, hq, hq1, hq2⟩ := h3 x hx
          exact ⟨q, List.mem_cons_of_mem _ hq, hq1, hq2⟩

theorem addToGroup_keeps (k id : Int) (gs : List (Int × List Int)) (q : Int × List Int)
    (x : Int) (hq : q ∈ gs) (hx : x ∈ q.2) :
    ∃ p ∈ addToGroup k id gs, p.1 = q.1 ∧ x ∈ p.2 := by
  induction gs with
  | nil => cases hq
  | cons g rest ih =>
    obtain ⟨k1, ids1⟩ := g
    simp only [addToGroup]
    by_cases hk : k1 = k
    · rw [if_pos hk]
      rcases List.mem_cons.mp hq with h | h
      · subst h
        exact ⟨(k1, id :: ids1), List.mem_cons_self _ _, rfl, List.mem_cons_of_mem _ hx⟩
      · exact ⟨q, List.mem_cons_of_mem _ h, rfl, hx⟩
    · rw [if_neg hk]
      rcases List.mem_cons.mp hq with h | h
      · subst h
        exact ⟨(k1, ids1), List.mem_cons_self _ _, rfl, hx⟩
      · obtain ⟨p, hp, hp1, hp2⟩ := ih h
        exact ⟨p, List.mem_cons_of_mem _ hp, hp1, hp2⟩

theorem addToGroup_has (k id : Int) (gs : List (Int × List Int)) :
    ∃ p ∈ addToGroup k id gs, p.1 = k ∧ id ∈ p.2 := by
  induction gs with
  | nil => exact ⟨(k, [id]), by simp [addToGroup], rfl, by simp⟩
  | cons g rest ih =>
    obtain ⟨k1, ids1⟩ := g
    simp only [addToGroup]
    by_cases hk : k1 = k
    · rw [if_pos hk]
      exact ⟨(k1, id :: ids1), List.mem_cons_self _ _, hk, List.mem_cons_self _ _⟩
    · rw [if_neg hk]
      obtain ⟨p, hp, hp1, hp2⟩ := ih
      exact ⟨p, List.mem_cons_of_mem _ hp, hp1, hp2⟩

/-- Every group built by `groupByField` is non-empty and holds input ids whose
field value is the key of the group. -/
theorem groupByField_sound (toField : Int → Except GoError Int) (ids : List Int) :
    ∀ gs, groupByField toField ids = .ok gs →
      ∀ p ∈ gs, p.2 ≠ [] ∧ ∀ x ∈ p.2, x ∈ ids ∧ toField x = .ok p.1 := by
  induction ids with
  | nil =>
    intro gs h p hp
    simp only [groupByField, Except.ok.injEq] at h
    subst h
    cases hp
  | cons id rest ih =>
    intro gs h p hp
    simp only [groupByField] at h
    cases hk : toField id with
    | error e => rw [hk] at h; cases h
    | ok k =>
      rw [hk] at h
      cases hrest : groupByField toField rest with
      | error e => rw [hrest] at h; cases h
      | ok gs0 =>
        rw [hrest] at h
        simp only [Except.ok.injEq] at h
        subst h
        rcases addToGroup_mem_cases k id gs0 p hp with h1 | ⟨h1, old, h2, h3⟩
        · obtain ⟨hne, hall⟩ := ih gs0 hrest p h1
          exact ⟨hne, fun x hx => ⟨List.mem_cons_of_mem _ (hall x hx).1, (hall x hx).2⟩⟩
        · refine ⟨by rw [h2]; simp, ?_⟩
          intro x hx
          rw [h2] at hx
          rcases List.mem_cons.mp hx with hx1 | hx1
          · subst hx1
            exact ⟨List.mem_cons_self _ _, by rw [hk, h1]⟩
          · obtain ⟨q, hq, hq1, hq2⟩ := h3 x hx1
            obtain ⟨_, hall⟩ := ih gs0 hrest q hq
            exact ⟨List.mem_cons_of_mem _ (hall x hq2).1, by rw [(hall x hq2).2, hq1, h1]⟩

/-- When every read succeeds `groupByField` succeeds and every input id is in
some group. -/
theorem groupByField_complete (toField : Int → Except GoError Int) (ids : List Int)
    (hread : ∀ id ∈ ids, ∃ k, toField id = .ok k) :
    ∃ gs, groupByField toField ids = .ok gs ∧ ∀ x ∈ ids, ∃ p ∈ gs, x ∈ p.2 := by
  induction ids with
  | nil => exact ⟨[], rfl, by simp⟩
  | cons id rest ih =>
    obtain ⟨gs0, hgs0, hall⟩ := ih (fun x hx => hread x (List.mem_cons_of_mem _ hx))
    obtain ⟨k, hk⟩ := hread id (List.mem_cons_self _ _)
    refine ⟨addToGroup k id gs0, by simp [groupByField, hk, hgs0], ?_⟩
    intro x hx
    rcases List.mem_cons.mp hx with h | h
    · subst h
      obtain ⟨p, hp, _, hp2⟩ := addToGroup_has k x gs0
      exact ⟨p, hp, hp2⟩
    · obtain ⟨q, hq, hq2⟩ := hall x h
      obtain ⟨p, hp, _, hp2⟩ := addToGroup_keeps k id gs0 q x hq hq2
      exact ⟨p, hp, hp2⟩

/-- The ids returned by `eachGroup` come from the answers of `f`. -/
theorem eachGroup_mem (f : Int → List Int → Except GoError (List Int))
    (gs : List (Int × List Int)) :
    ∀ r, eachGroup f gs = .ok r →
      ∀ x, x ∈ r ↔ ∃ p ∈ gs, ∃ a, f p.1 p.2 = .ok a ∧ x ∈ a := by
  induction gs with
  | nil =>
    intro r h x
    simp only [eachGroup, Except.ok.injEq] at h
    subst h
    simp
  | cons g rest ih =>
    obtain ⟨k, ids⟩ := g
    intro r h x
    simp only [eachGroup] at h
    cases hf : f k ids with
    | error e => rw [hf] at h; cases h
    | ok a =>
      rw [hf] at h
      cases hrest : eachGroup f rest with
      | error e => rw [hrest] at h; cases h
      | ok r0 =>
        rw [hrest] at h
        simp only [Except.ok.injEq] at h
        subst h
        rw [List.mem_append, ih r0 hrest x]
        constructor
        · rintro (hx | ⟨p, hp, a1, ha1, hx⟩)
          · exact ⟨(k, ids), List.mem_cons_self _ _, a, hf, hx⟩
          · exact ⟨p, List.mem_cons_of_mem _ hp, a1, ha1, hx⟩
        · rintro ⟨p, hp, a1, ha1, hx⟩
          rcases List.mem_cons.mp hp with h1 | h1
          · subst h1
            rw [hf] at ha1
            simp only [Except.ok.injEq] at ha1
            subst ha1
            exact Or.inl hx
          · exact Or.inr ⟨p, h1, a1, ha1, hx⟩

/-- When `f` succeeds on every group `eachGroup` succeeds. -/
theorem eachGroup_ok (f : Int → List Int → Except GoError (List Int))
    (gs : List (Int × List Int)) (hf : ∀ p ∈ gs, ∃ a, f p.1 p.2 = .ok a) :
    ∃ r, eachGroup f gs = .ok r := by
  induction gs with
  | nil => exact ⟨[], rfl⟩
  | cons g rest ih =>
    obtain ⟨k, ids⟩ := g
    obtain ⟨r0, hr0⟩ := ih (fun p hp => hf p (List.mem_cons_of_mem _ hp))
    obtain ⟨a, ha⟩ := hf (k, ids) (List.mem_cons_self _ _)
    exact ⟨a ++ r0, by simp [eachGroup, ha, hr0]⟩

/-- Every id returned by `eachRelationField` is an input id, when `f` answers
with ids of its group. -/
theorem eachRelationField_subset (toField : Int → Except GoError Int) (ids : List Int)
    (f : Int → List Int → Except GoError (List Int))
    (hf : ∀ k grp a, f k grp = .ok a → ∀ x ∈ a, x ∈ grp)
    (r : List Int) (h : eachRelationField toField ids f = .ok r) :
    ∀ x ∈ r, x ∈ ids := by
  intro x hx
  simp only [eachRelationField] at h
  cases hg : groupByField toField ids with
  | error e => rw [hg] at h; cases h
  | ok gs =>
    rw [hg] at h
    obtain ⟨p, hp, a, ha, hxa⟩ := (eachGroup_mem f gs r h x).mp hx
    exact ((groupByField_sound toField ids gs hg p hp).2 x (hf p.1 p.2 a ha x hxa)).1

/-- Result of `eachRelationField` when all reads succeed and `f` filters every
non-empty group by `P`. -/
theorem eachRelationField_filter (toField : Int → Except GoError Int) (ids : List Int)
    (f : Int → List Int → Except GoError (List Int)) (P : Int → Prop)
    (hread : ∀ id ∈ ids, ∃ k, toField id = .ok k)
    (hf : ∀ k grp, grp ≠ [] → (∀ x ∈ grp, x ∈ ids ∧ toField x = .ok k) →
      ∃ a, f k grp = .ok a ∧ ∀ x, x ∈ a ↔ (x ∈ grp ∧ P x)) :
    ∃ r, eachRelationField toField ids f = .ok r ∧ ∀ x, x ∈ r ↔ (x ∈ ids ∧ P x) := by
  obtain ⟨gs, hgs, hall⟩ := groupByField_complete toField ids hread
  have hsound := groupByField_sound toField ids gs hgs
  obtain ⟨r, hr⟩ := eachGroup_ok f gs (fun p hp => by
    obtain ⟨a, ha, _⟩ := hf p.1 p.2 (hsound p hp).1 (hsound p hp).2
    exact ⟨a, ha⟩)
  refine ⟨r, by simp [eachRelationField, hgs, hr], ?_⟩
  intro x
  rw [eachGroup_mem f gs r hr x]
  constructor
  · rintro ⟨p, hp, a, ha, hx⟩
    obtain ⟨a1, ha1, hiff⟩ := hf p.1 p.2 (hsound p hp).1 (hsound p hp).2
    rw [ha] at ha1
    simp only [Except.ok.injEq] at ha1
    subst ha1
    exact ⟨((hsound p hp).2 x ((hiff x).mp hx).1).1, ((hiff x).mp hx).2⟩
  · rintro ⟨hx, hP⟩
    obtain ⟨p, hp, hxp⟩ := hall x hx
    obtain ⟨a, ha, hiff⟩ := hf p.1 p.2 (hsound p hp).1 (hsound p hp).2
    exact ⟨p, hp, a, ha, (hiff x).mpr ⟨hxp, hP⟩⟩

/-! ## The collection restricters -/

theorem eachCondition_subset (f : Int → Except GoError Bool) (ids : List Int) :
    ∀ r, eachCondition ids f = .ok r → ∀ x ∈ r, x ∈ ids := by
  induction ids with
  | nil =>
    intro r h x hx
    simp only [eachCondition, Except.ok.injEq] at h
    subst h
    cases hx
  | cons id rest ih =>
    intro r h x hx
    simp only [eachCondition] at h
    cases hf : f id with
    | error e => rw [hf] at h; cases h
    | ok b =>
      rw [hf] at h
      cases hrest : eachCondition rest f with
      | error e => rw [hrest] at h; cases h
      | ok r0 =>
        rw [hrest] at h
        simp only [Except.ok.injEq] at h
        subst h
        cases b with
        | false => exact List.mem_cons_of_mem _ (ih r0 hrest x (by simpa using hx))
        | true =>
          simp only [if_true] at hx
          rcases List.mem_cons.mp hx with h1 | h1
          · subst h1; exact List.mem_cons_self _ _
          · exact List.mem_cons_of_mem _ (ih r0 hrest x h1)

theorem eachCondition_filter (f : Int → Except GoError Bool) (ids : List Int)
    (hf : ∀ id ∈ ids, ∃ b, f id = .ok b) :
    ∃ r, eachCondition ids f = .ok r ∧ ∀ x, x ∈ r ↔ (x ∈ ids ∧ f x = .ok true) := by
  induction ids with
  | nil => exact ⟨[], rfl, by simp⟩
  | cons id rest ih =>
    obtain ⟨r0, hr0, hiff⟩ := ih (fun x hx => hf x (List.mem_cons_of_mem _ hx))
    obtain ⟨b, hb⟩ := hf id (List.mem_cons_self _ _)
    refine ⟨if b then id :: r0 else r0, by simp [eachCondition, hb, hr0], ?_⟩
    intro x
    cases b with
    | false =>
      simp only [Bool.false_eq_true, if_false, hiff x, List.mem_cons]
      constructor
      · rintro ⟨h1, h2⟩; exact ⟨Or.inr h1, h2⟩
      · rintro ⟨h1 | h1, h2⟩
        · subst h1; rw [hb] at h2; cases h2
        · exact ⟨h1, h2⟩
    | true =>
      simp only [if_true, List.mem_cons, hiff x]
      constructor
      · rintro (h1 | ⟨h1, h2⟩)
        · subst h1; exact ⟨Or.inl rfl, hb⟩
        · exact ⟨Or.inr h1, h2⟩
      · rintro ⟨h1 | h1, h2⟩
        · exact Or.inl h1
        · exact Or.inr ⟨h1, h2⟩

/-- The function literal of `ChatMessage.see` answers with ids of its group. -/
theorem seeGroup_subset (ds : Fetch) (mperms : MeetingPermission) (g : Int) (grp a : List Int)
    (h : ChatMessage.seeGroup ds mperms g grp = .ok a) : ∀ x ∈ a, x ∈ grp := by
  unfold ChatMessage.seeGroup at h
  split at h
  · cases h
  · split at h
    · cases h
    · split at h
      · simp only [Except.ok.injEq] at h; subst h; exact fun x hx => hx
      · split at h
        · cases h
        · split at h
          · simp only [Except.ok.injEq] at h; subst h; exact fun x hx => hx
          · split at h
            · cases h
            · rename_i allowed hall
              simp only [Except.ok.injEq] at h
              subst h
              exact eachCondition_subset _ grp allowed hall

/-- Result of the function literal of `ChatMessage.see` on a group whose reads
succeed. -/
theorem seeGroup_filter (ds : Fetch) (mperms : MeetingPermission) (g mid : Int)
    (perms : Permission) (rg grp : List Int)
    (hmid : ds.ChatGroup_MeetingID g = .ok mid)
    (hperms : mperms.Meeting mid = .ok perms)
    (hrg : ds.ChatGroup_ReadGroupIDs g = .ok rg)
    (hauth : ∀ m ∈ grp, ∃ a, ds.ChatMessage_UserID m = .ok a) :
    ∃ r, ChatMessage.seeGroup ds mperms g grp = .ok r ∧
      ∀ m, m ∈ r ↔ (m ∈ grp ∧ (perms.Has ChatCanManage = true ∨
        (∃ gid ∈ rg, perms.InGroup gid = true) ∨
        ds.ChatMessage_UserID m = .ok mperms.UserID)) := by
  by_cases hHas : perms.Has ChatCanManage = true
  · refine ⟨grp, by simp [ChatMessage.seeGroup, ChatGroup.MeetingID, hmid, hperms, hHas], ?_⟩
    intro m
    exact ⟨fun h => ⟨h, Or.inl hHas⟩, fun h => h.1⟩
  · by_cases hIn : rg.any perms.InGroup = true
    · refine ⟨grp, by
        simp [ChatMessage.seeGroup, ChatGroup.MeetingID, hmid, hperms, hHas, hrg, hIn], ?_⟩
      intro m
      refine ⟨fun h => ⟨h, Or.inr (Or.inl ?_)⟩, fun h => h.1⟩
      simpa [List.any_eq_true] using hIn
    · obtain ⟨r, hr, hiff⟩ := eachCondition_filter (fun chatMessageID =>
          match ds.ChatMessage_UserID chatMessageID with
          | .error err => .error (.wrapf "reading author of chat message: %w" [] err)
          | .ok author => .ok (decide (author = mperms.UserID))) grp (by
        intro m hm
        obtain ⟨a, ha⟩ := hauth m hm
        exact ⟨decide (a = mperms.UserID), by simp [ha]⟩)
      refine ⟨r, by
        simp [ChatMessage.seeGroup, ChatGroup.MeetingID, hmid, hperms, hHas, hrg, hIn, hr], ?_⟩
      intro m
      rw [hiff m]
      have hnot : ¬ ∃ gid ∈ rg, perms.InGroup gid = true := by
        simpa [List.any_eq_true] using hIn
      constructor
      · rintro ⟨hm, hcond⟩
        obtain ⟨a, ha⟩ := hauth m hm
        rw [ha] at hcond
        simp only [Except.ok.injEq, decide_eq_true_eq] at hcond
        exact ⟨hm, Or.inr (Or.inr (by rw [ha, hcond]))⟩
      · rintro ⟨hm, h1 | h1 | h1⟩
        · exact absurd h1 hHas
        · exact absurd h1 hnot
        · exact ⟨hm, by rw [h1]; simp⟩

/-- Result of `ChatMessage.see` on any list of messages whose reads succeed:
exactly the input ids that the documented rule lets the user see. -/
theorem chatMessage_see_canSee (ds : Fetch) (mperms : MeetingPermission) (ids : List Int)
    (hread : ∀ x ∈ ids, ChatMessage.readable ds mperms x) :
    ∃ r, ChatMessage.see ds mperms ids = .ok r ∧
      ∀ m, m ∈ r ↔ (m ∈ ids ∧ ChatMessage.canSee ds mperms m = true) := by
  apply eachRelationField_filter ds.ChatMessage_ChatGroupID ids (ChatMessage.seeGroup ds mperms)
    (fun m => ChatMessage.canSee ds mperms m = true)
  · intro x hx
    obtain ⟨g, _, _, _, _, hg, _⟩ := hread x hx
    exact ⟨g, hg⟩
  · intro k grp hne hgrp
    obtain ⟨x0, hx0⟩ := List.exists_mem_of_ne_nil grp hne
    obtain ⟨g, mid, perms, rg, a0, hg, hmid, hperms, hrg, _⟩ := hread x0 (hgrp x0 hx0).1
    have hk : g = k := by
      have := (hgrp x0 hx0).2
      rw [hg] at this
      exact Except.ok.inj this
    subst hk
    obtain ⟨r, hr, hiff⟩ := seeGroup_filter ds mperms g mid perms rg grp hmid hperms hrg (by
      intro m hm
      obtain ⟨_, _, _, _, a, _, _, _, _, ha⟩ := hread m (hgrp m hm).1
      exact ⟨a, ha⟩)
    refine ⟨r, hr, ?_⟩
    intro m
    rw [hiff m]
    constructor
    · rintro ⟨hm, hcond⟩
      refine ⟨hm, ?_⟩
      obtain ⟨_, _, _, _, a, _, _, _, _, ha⟩ := hread m (hgrp m hm).1
      simp only [ChatMessage.canSee, (hgrp m hm).2, hmid, hperms, hrg, ha, Bool.or_eq_true,
        List.any_eq_true, decide_eq_true_eq]
      rcases hcond with h | h | h
      · exact Or.inl (Or.inl h)
      · exact Or.inl (Or.inr h)
      · rw [ha] at h
        exact Or.inr (Except.ok.inj h)
    · rintro ⟨hm, hcan⟩
      refine ⟨hm, ?_⟩
      obtain ⟨_, _, _, _, a, _, _, _, _, ha⟩ := hread m (hgrp m hm).1
      simp only [ChatMessage.canSee, (hgrp m hm).2, hmid, hperms, hrg, ha, Bool.or_eq_true,
        List.any_eq_true, decide_eq_true_eq] at hcan
      rcases hcan with (h | h) | h
      · exact Or.inl h
      · exact Or.inr (Or.inl h)
      · exact Or.inr (Or.inr (by rw [ha, h]))

/-- Result of `PersonalNote.see` on notes whose `user_id` can be read: the
input ids whose `user_id` is the id of the requesting user. -/
theorem personalNote_see_filter (ds : Fetch) (mperms : MeetingPermission) (ids : List Int)
    (hread : ∀ id ∈ ids, ∃ u, ds.PersonalNote_UserID id = .ok u) :
    ∃ r, PersonalNote.see ds mperms ids = .ok r ∧
      ∀ id, id ∈ r ↔ (id ∈ ids ∧ ds.PersonalNote_UserID id = .ok mperms.UserID) := by
  apply eachRelationField_filter ds.PersonalNote_UserID ids _
    (fun id => ds.PersonalNote_UserID id = .ok mperms.UserID) hread
  intro k grp _ hgrp
  by_cases hk : mperms.UserID = k
  · refine ⟨grp, by simp [hk], ?_⟩
    intro x
    exact ⟨fun hx => ⟨hx, by rw [(hgrp x hx).2, hk]⟩, fun hx => hx.1⟩
  · refine ⟨[], by simp [hk], ?_⟩
    intro x
    constructor
    · intro hx; cases hx
    · rintro ⟨hx, hu⟩
      rw [(hgrp x hx).2] at hu
      exact absurd (Except.ok.inj hu).symm hk


/-! ## Decimal text -/

theorem digitChar_toNat (d : Nat) : (digitChar d).toNat = 48 + d % 10 := by
  have h : d % 10 < 10 := Nat.mod_lt _ (by decide)
  unfold digitChar
  generalize d % 10 = e at h
  interval_cases e <;> rfl

theorem isDigit_digitChar (d : Nat) : isDigit (digitChar d) = true := by
  have h : d % 10 < 10 := Nat.mod_lt _ (by decide)
  simp only [isDigit, digitChar_toNat, decide_eq_true_eq]
  omega

theorem digitVal_digitChar (d : Nat) : digitVal (digitChar d) = d % 10 := by
  simp only [digitVal, digitChar_toNat]
  omega

theorem isDigit_toNat (c : Char) (h : isDigit c = true) : 48 ≤ c.toNat ∧ c.toNat ≤ 57 := by
  simpa [isDigit] using h

theorem char_ne_of_toNat (c d : Char) (h : c.toNat ≠ d.toNat) : c ≠ d := by
  intro hcd
  exact h (by rw [hcd])

theorem natDigitsAux_acc (fuel n : Nat) (acc : Bytes) :
    natDigitsAux fuel n acc = natDigitsAux fuel n [] ++ acc := by
  induction fuel generalizing n acc with
  | zero => simp [natDigitsAux]
  | succ f ih =>
    simp only [natDigitsAux]
    by_cases h : n < 10
    · simp [h]
    · simp only [h, if_false]
      rw [ih (n / 10) (digitChar n :: acc), ih (n / 10) [digitChar n]]
      simp

/-- The decimal text of a number below ten is its digit. -/
theorem natDigitsAux_small (fuel n : Nat) (h : n < 10) :
    natDigitsAux (fuel + 1) n [] = [digitChar n] := by
  simp [natDigitsAux, h]

/-- The decimal text of a number from ten on is the text of its tenth part
followed by its last digit. -/
theorem natDigitsAux_big (fuel n : Nat) (h : ¬ n < 10) :
    natDigitsAux (fuel + 1) n [] = natDigitsAux fuel (n / 10) [] ++ [digitChar n] := by
  simp only [natDigitsAux, h, if_false]
  exact natDigitsAux_acc fuel (n / 10) [digitChar n]

theorem natDigitsAux_all_digits (fuel n : Nat) :
    ∀ c ∈ natDigitsAux fuel n [], isDigit c = true := by
  induction fuel generalizing n with
  | zero => simp [natDigitsAux]
  | succ f ih =>
    by_cases h : n < 10
    · rw [natDigitsAux_small f n h]
      intro c hc
      rw [List.mem_singleton.mp hc]
      exact isDigit_digitChar n
    · rw [natDigitsAux_big f n h]
      intro c hc
      rcases List.mem_append.mp hc with h1 | h1
      · exact ih (n / 10) c h1
      · rw [List.mem_singleton.mp h1]
        exact isDigit_digitChar n

theorem digitsValue_cons (acc : Nat) (c : Char) (cs : Bytes) :
    digitsValue acc (c :: cs) = digitsValue (acc * 10 + digitVal c) cs :=
  List.foldl_cons _ _

theorem digitsValue_append (acc : Nat) (xs : Bytes) (d : Char) :
    digitsValue acc (xs ++ [d]) = digitsValue acc xs * 10 + digitVal d := by
  unfold digitsValue
  rw [List.foldl_append]
  rfl

theorem digitsValue_ge (acc : Nat) (xs : Bytes) : acc ≤ digitsValue acc xs := by
  induction xs generalizing acc with
  | nil => exact Nat.le_refl acc
  | cons c cs ih =>
    have h1 := ih (acc * 10 + digitVal c)
    rw [digitsValue_cons]
    omega

/-- Reading the decimal text of `n` gives `n`. -/
theorem digitsValue_natDigitsAux (fuel n : Nat) (h : n < fuel) :
    digitsValue 0 (natDigitsAux fuel n []) = n := by
  induction fuel generalizing n with
  | zero => omega
  | succ f ih =>
    by_cases h10 : n < 10
    · rw [natDigitsAux_small f n h10]
      rw [digitsValue_cons, digitVal_digitChar]
      show 0 * 10 + n % 10 = n
      omega
    · rw [natDigitsAux_big f n h10, digitsValue_append, ih (n / 10) (by omega),
        digitVal_digitChar]
      omega

/-- The decimal text of a positive number starts with a digit other than
`0`. -/
theorem natDigitsAux_head (fuel n : Nat) (h : n < fuel) (hpos : 0 < n) :
    ∃ d ds, natDigitsAux fuel n [] = d :: ds ∧ isDigit d = true ∧ d ≠ '0' := by
  induction fuel generalizing n with
  | zero => omega
  | succ f ih =>
    by_cases h10 : n < 10
    · rw [natDigitsAux_small f n h10]
      refine ⟨digitChar n, [], rfl, isDigit_digitChar n, ?_⟩
      apply char_ne_of_toNat
      rw [digitChar_toNat]
      have : ('0' : Char).toNat = 48 := rfl
      omega
    · rw [natDigitsAux_big f n h10]
      obtain ⟨d, ds, hd, h1, h2⟩ := ih (n / 10) (by omega) (by omega)
      exact ⟨d, ds ++ [digitChar n], by rw [hd]; rfl, h1, h2⟩

theorem natDigits_ne_nil (n : Nat) : natDigits n ≠ [] := by
  unfold natDigits
  by_cases h10 : n < 10
  · rw [natDigitsAux_small n n h10]; simp
  · rw [natDigitsAux_big n n h10]; simp

theorem natDigits_all_digits (n : Nat) : ∀ c ∈ natDigits n, isDigit c = true :=
  natDigitsAux_all_digits (n + 1) n

theorem digitsValue_natDigits (n : Nat) : digitsValue 0 (natDigits n) = n :=
  digitsValue_natDigitsAux (n + 1) n (by omega)

theorem natDigits_zero : natDigits 0 = ['0'] := rfl

theorem natDigits_head (n : Nat) (hpos : 0 < n) :
    ∃ d ds, natDigits n = d :: ds ∧ isDigit d = true ∧ d ≠ '0' :=
  natDigitsAux_head (n + 1) n (by omega) hpos

/-! ## strconv.ParseInt -/

/-- The digit loop succeeds on digits whose value fits `uint64`. -/
theorem parseUintLoop_digits (fn : String) (s0 : Bytes) (ds : Bytes) (acc : Nat)
    (hd : ∀ c ∈ ds, isDigit c = true) (hv : digitsValue acc ds ≤ maxUint64) :
    parseUintLoop fn s0 acc ds = .ok (digitsValue acc ds) := by
  induction ds generalizing acc with
  | nil => rfl
  | cons c cs ih =>
    rw [digitsValue_cons] at hv ⊢
    have hge := digitsValue_ge (acc * 10 + digitVal c) cs
    have hnot : ¬ acc * 10 + digitVal c > maxUint64 := by omega
    simp only [parseUintLoop, hd c (List.mem_cons_self _ _), if_true, hnot, if_false]
    exact ih (acc * 10 + digitVal c) (fun x hx => hd x (List.mem_cons_of_mem _ hx)) hv

/-- The digit loop succeeds only on digits. -/
theorem parseUintLoop_ok_digits (fn : String) (s0 : Bytes) (ds : Bytes) (acc v : Nat)
    (h : parseUintLoop fn s0 acc ds = .ok v) : ds.all isDigit = true := by
  induction ds generalizing acc with
  | nil => rfl
  | cons c cs ih =>
    simp only [parseUintLoop] at h
    by_cases hc : isDigit c = true
    · simp only [hc, if_true] at h
      by_cases hr : acc * 10 + digitVal c > maxUint64
      · simp only [hr, if_true] at h
        cases h
      · simp only [hr, if_false] at h
        simp [hc, ih _ h]
    · simp only [hc] at h
      cases h

theorem isDigit_not_sign (c : Char) (h : isDigit c = true) : c ≠ '+' ∧ c ≠ '-' := by
  have h1 := isDigit_toNat c h
  constructor
  · apply char_ne_of_toNat
    have : ('+' : Char).toNat = 43 := rfl
    omega
  · apply char_ne_of_toNat
    have : ('-' : Char).toNat = 45 := rfl
    omega

/-- Go `strconv.ParseInt` and `strconv.Atoi` read the text written by
`strconv.Itoa` back, for every number in the range of `int`. -/
theorem parseIntAs_Itoa (fn : String) (n : Int) (hlo : minInt64 ≤ n) (hhi : n ≤ maxInt64) :
    ParseIntAs fn (Itoa n) = (n, none) := by
  have hall := natDigits_all_digits n.natAbs
  have hval := digitsValue_natDigits n.natAbs
  have hne := natDigits_ne_nil n.natAbs
  have hmax : maxUint64 = 18446744073709551615 := by decide
  have hlo1 : -9223372036854775808 ≤ n := by
    have : minInt64 = -9223372036854775808 := by decide
    rw [this] at hlo; exact hlo
  have hhi1 : n ≤ 9223372036854775807 := by
    have : maxInt64 = 9223372036854775807 := by decide
    rw [this] at hhi; exact hhi
  have hloop : parseUintLoop fn (Itoa n) 0 (natDigits n.natAbs) = .ok n.natAbs := by
    have := parseUintLoop_digits fn (Itoa n) (natDigits n.natAbs) 0 hall (by
      rw [hval, hmax]; omega)
    rw [hval] at this
    exact this
  have hpu : ParseUint fn (Itoa n) (natDigits n.natAbs) = .ok n.natAbs := by
    unfold ParseUint
    cases hnd : natDigits n.natAbs with
    | nil => exact absurd hnd hne
    | cons c cs => rw [hnd] at hloop; exact hloop
  by_cases hneg : n < 0
  · have hItoa : Itoa n = '-' :: natDigits n.natAbs := by simp [Itoa, hneg]
    rw [hItoa] at hpu ⊢
    simp only [ParseIntAs, decide_True, or_true, if_true, hpu]
    have h1 : ¬ n.natAbs > 2 ^ 63 := by omega
    simp only [h1, if_false]
    congr 1
    omega
  · have hItoa : Itoa n = natDigits n.natAbs := by simp [Itoa, hneg]
    rw [hItoa] at hpu ⊢
    cases hnd : natDigits n.natAbs with
    | nil => exact absurd hnd hne
    | cons c cs =>
      rw [hnd] at hpu
      have hc : isDigit c = true := hall c (by rw [hnd]; exact List.mem_cons_self _ _)
      obtain ⟨hp, hm⟩ := isDigit_not_sign c hc
      simp only [ParseIntAs, hp, hm, decide_False, or_self, if_false, hpu]
      have h1 : ¬ n.natAbs ≥ 2 ^ 63 := by omega
      simp only [h1, if_false, Bool.false_eq_true]
      congr 1
      omega

/-- Go `strconv.ParseInt` and `strconv.Atoi` succeed only on a decimal integer. -/
theorem parseIntAs_ok_decimal (fn : String) (s : Bytes) (v : Int)
    (h : ParseIntAs fn s = (v, none)) : isDecimalInteger s = true := by
  cases s with
  | nil => simp [ParseIntAs] at h
  | cons c cs =>
    simp only [ParseIntAs] at h
    by_cases hs : c = '+' ∨ c = '-'
    · simp only [hs, if_true] at h
      cases hpu : ParseUint fn (c :: cs) cs with
      | error e => rw [hpu] at h; simp at h
      | ok un =>
        unfold ParseUint at hpu
        cases cs with
        | nil => simp at hpu
        | cons d ds =>
          simp only at hpu
          have := parseUintLoop_ok_digits fn _ _ _ _ hpu
          simp only [isDecimalInteger, hs, if_true]
          simpa using this
    · simp only [hs, if_false] at h
      cases hpu : ParseUint fn (c :: cs) (c :: cs) with
      | error e => rw [hpu] at h; simp at h
      | ok un =>
        unfold ParseUint at hpu
        simp only at hpu
        have := parseUintLoop_ok_digits fn _ _ _ _ hpu
        simp only [isDecimalInteger, hs, if_false]
        exact this

/-- On text that is no decimal integer `strconv.Atoi` returns an error. -/
theorem atoi_error_of_not_decimal (s : Bytes) (h : isDecimalInteger s = false) :
    ∃ v e, Atoi s = (v, some e) := by
  cases hA : Atoi s with
  | mk v oe =>
    cases oe with
    | some e => exact ⟨v, e, rfl⟩
    | none =>
      have := parseIntAs_ok_decimal "Atoi" s v hA
      rw [h] at this
      cases this

/-! ## Tokenizing the JSON array encoding of a list of integers -/

theorem takeWhile_digits_append (ds r : Bytes) (hd : ∀ c ∈ ds, isDigit c = true)
    (hr : ∀ c r1, r = c :: r1 → isDigit c = false) :
    (ds ++ r).takeWhile isDigit = ds ∧ (ds ++ r).dropWhile isDigit = r := by
  induction ds with
  | nil =>
    cases r with
    | nil => exact ⟨rfl, rfl⟩
    | cons c r1 =>
      have hc := hr c r1 rfl
      simp [List.takeWhile, List.dropWhile, hc]
  | cons d ds ih =>
    have hdd := hd d (List.mem_cons_self _ _)
    obtain ⟨h1, h2⟩ := ih (fun c hc => hd c (List.mem_cons_of_mem _ hc))
    simp [List.takeWhile, List.dropWhile, hdd, h1, h2]

/-- A comma or a closing bracket ends a number literal. -/
theorem sep_facts (c : Char) (hc : c = ',' ∨ c = ']') :
    isDigit c = false ∧ c ≠ '.' ∧ c ≠ 'e' ∧ c ≠ 'E' := by
  rcases hc with h | h <;> subst h <;> decide

theorem lexIntPart_natDigits (m : Nat) (c : Char) (r : Bytes) (hc : c = ',' ∨ c = ']') :
    lexIntPart (natDigits m ++ c :: r) = some (natDigits m, c :: r) := by
  obtain ⟨hcd, _, _, _⟩ := sep_facts c hc
  by_cases hm : m = 0
  · subst hm
    rw [natDigits_zero]
    simp [lexIntPart]
  · obtain ⟨d, ds, hds, hd, hd0⟩ := natDigits_head m (by omega)
    have hall := natDigits_all_digits m
    rw [hds] at hall ⊢
    obtain ⟨h1, h2⟩ := takeWhile_digits_append ds (c :: r)
      (fun x hx => hall x (List.mem_cons_of_mem _ hx))
      (fun x r1 hx => by
        have : c = x := by injection hx
        rw [← this]; exact hcd)
    simp [lexIntPart, hd0, hd, h1, h2]

theorem lexNumber_Itoa (n : Int) (c : Char) (r : Bytes) (hc : c = ',' ∨ c = ']') :
    lexNumber (Itoa n ++ c :: r) = some (Itoa n, c :: r) := by
  obtain ⟨_, hdot, he, hE⟩ := sep_facts c hc
  have hint := lexIntPart_natDigits n.natAbs c r hc
  have hfrac : lexFracPart (c :: r) = some ([], c :: r) := by simp [lexFracPart, hdot]
  have hexp : lexExpPart (c :: r) = some ([], c :: r) := by simp [lexExpPart, he, hE]
  by_cases hneg : n < 0
  · have hItoa : Itoa n = '-' :: natDigits n.natAbs := by simp [Itoa, hneg]
    rw [hItoa]
    simp [lexNumber, hint, hfrac, hexp]
  · have hItoa : Itoa n = natDigits n.natAbs := by simp [Itoa, hneg]
    rw [hItoa]
    cases hnd : natDigits n.natAbs with
    | nil => exact absurd hnd (natDigits_ne_nil _)
    | cons d ds =>
      have hd : isDigit d = true :=
        natDigits_all_digits n.natAbs d (by rw [hnd]; exact List.mem_cons_self _ _)
      rw [hnd] at hint
      have hm := (isDigit_not_sign d hd).2
      simp only [lexNumber, List.cons_append, hm, if_false, List.length_nil, List.drop_zero]
      have hint1 : lexIntPart (d :: (ds ++ c :: r)) = some (d :: ds, c :: r) := hint
      simp [hint1, hfrac, hexp]

/-- The first character of the decimal text of an integer is a minus sign or
a digit. -/
theorem Itoa_head (n : Int) : ∃ h t, Itoa n = h :: t ∧ (h = '-' ∨ isDigit h = true) := by
  by_cases hneg : n < 0
  · exact ⟨'-', natDigits n.natAbs, by simp [Itoa, hneg], Or.inl rfl⟩
  · cases hnd : natDigits n.natAbs with
    | nil => exact absurd hnd (natDigits_ne_nil _)
    | cons d ds =>
      refine ⟨d, ds, by simp [Itoa, hneg, hnd], Or.inr ?_⟩
      exact natDigits_all_digits n.natAbs d (by rw [hnd]; exact List.mem_cons_self _ _)

/-- The token at the start of a number literal. -/
theorem nextToken_number (h : Char) (t : Bytes) (hh : h = '-' ∨ isDigit h = true) :
    nextToken h t =
      match lexNumber (h :: t) with
      | none => none
      | some (lit, rest) => some (some (Token.num lit), rest) := by
  have hn : h.toNat = 45 ∨ (48 ≤ h.toNat ∧ h.toNat ≤ 57) := by
    rcases hh with h1 | h1
    · subst h1; exact Or.inl rfl
    · exact Or.inr (isDigit_toNat h h1)
  have h0 : isSpace h = false := by
    simp only [isSpace, decide_eq_false_iff_not]
    omega
  have h1 : h ≠ '[' := char_ne_of_toNat _ _ (by
    have : ('[' : Char).toNat = 91 := rfl
    omega)
  have h2 : h ≠ ']' := char_ne_of_toNat _ _ (by
    have : (']' : Char).toNat = 93 := rfl
    omega)
  have h3 : h ≠ chLBrace := char_ne_of_toNat _ _ (by
    have : chLBrace.toNat = 123 := rfl
    omega)
  have h4 : h ≠ chRBrace := char_ne_of_toNat _ _ (by
    have : chRBrace.toNat = 125 := rfl
    omega)
  have h5 : h ≠ ':' := char_ne_of_toNat _ _ (by
    have : (':' : Char).toNat = 58 := rfl
    omega)
  have h6 : h ≠ ',' := char_ne_of_toNat _ _ (by
    have : (',' : Char).toNat = 44 := rfl
    omega)
  have h7 : h ≠ chQuote := char_ne_of_toNat _ _ (by
    have : chQuote.toNat = 34 := rfl
    omega)
  simp only [nextToken, h0, h1, h2, h3, h4, h5, h6, h7, if_false, hh, if_true, Bool.false_eq_true]

/-- The text after the first element of an encoded array starts with a comma
or a closing bracket. -/
theorem marshalIntsTail_head (rest : List Int) :
    ∃ c r, marshalIntsTail rest = c :: r ∧ (c = ',' ∨ c = ']') := by
  cases rest with
  | nil => exact ⟨']', [], rfl, Or.inr rfl⟩
  | cons y ys => exact ⟨',', Itoa y ++ marshalIntsTail ys, rfl, Or.inl rfl⟩

/-- Tokenizing the decimal text of an integer inside an encoded array. -/
theorem lex_Itoa (fuel : Nat) (n : Int) (rest : List Int) :
    lex (fuel + 1) (Itoa n ++ marshalIntsTail rest) =
      (lex fuel (marshalIntsTail rest)).map (fun ts => Token.num (Itoa n) :: ts) := by
  obtain ⟨c, r, hcr, hc⟩ := marshalIntsTail_head rest
  obtain ⟨h, t, hht, hh⟩ := Itoa_head n
  have hnum := lexNumber_Itoa n c r hc
  rw [hcr]
  rw [hht] at hnum ⊢
  rw [List.cons_append] at hnum ⊢
  simp only [lex, nextToken_number h _ hh, hnum]
  rfl

/-- Tokenizing the tail of an encoded array. -/
theorem lex_marshalIntsTail (rest : List Int) :
    ∀ fuel, 2 * rest.length + 2 ≤ fuel →
      lex fuel (marshalIntsTail rest) = some (tailTokens rest) := by
  induction rest with
  | nil =>
    intro fuel hf
    obtain ⟨f1, rfl⟩ : ∃ f1, fuel = f1 + 2 := ⟨fuel - 2, by simp at hf; omega⟩
    rfl
  | cons y ys ih =>
    intro fuel hf
    obtain ⟨f1, rfl⟩ : ∃ f1, fuel = f1 + 2 := ⟨fuel - 2, by omega⟩
    have hstep : lex (f1 + 2) (marshalIntsTail (y :: ys)) =
        (lex (f1 + 1) (Itoa y ++ marshalIntsTail ys)).map (fun ts => Token.comma :: ts) := rfl
    rw [hstep, lex_Itoa f1 y ys, ih f1 (by simp at hf; omega)]
    rfl

theorem marshalIntsTail_length (rest : List Int) :
    2 * rest.length + 1 ≤ (marshalIntsTail rest).length := by
  induction rest with
  | nil => simp [marshalIntsTail]
  | cons y ys ih =>
    obtain ⟨h, t, hht, _⟩ := Itoa_head y
    simp only [marshalIntsTail, List.length_cons, List.length_append, hht]
    omega

/-- The tokens of the JSON array encoding of a list of integers. -/
theorem tokenize_MarshalIntSlice (x : Int) (rest : List Int) :
    tokenize (MarshalIntSlice (x :: rest)) =
      some (Token.lbrack :: Token.num (Itoa x) :: tailTokens rest) := by
  obtain ⟨h, t, hht, _⟩ := Itoa_head x
  have hlen := marshalIntsTail_length rest
  have hfuel : ∃ f1, (MarshalIntSlice (x :: rest)).length + 1 = f1 + 2 ∧
      2 * rest.length + 2 ≤ f1 := by
    refine ⟨(MarshalIntSlice (x :: rest)).length - 1, ?_, ?_⟩ <;>
      simp only [MarshalIntSlice, List.length_cons, List.length_append, hht] <;> omega
  obtain ⟨f1, hf1, hf2⟩ := hfuel
  unfold tokenize
  rw [hf1]
  have hstep : lex (f1 + 2) (MarshalIntSlice (x :: rest)) =
      (lex (f1 + 1) (Itoa x ++ marshalIntsTail rest)).map (fun ts => Token.lbrack :: ts) := rfl
  rw [hstep, lex_Itoa f1 x rest, lex_marshalIntsTail rest f1 hf2]
  rfl

/-! ## Parsing and storing the JSON array encoding of a list of integers -/

theorem tailTokens_length (rest : List Int) : (tailTokens rest).length = 2 * rest.length + 1 := by
  induction rest with
  | nil => rfl
  | cons y ys ih => simp only [tailTokens, List.length_cons, ih]; omega

/-- Parsing the elements of an encoded array. -/
theorem parseElems_ints (rest : List Int) :
    ∀ (x : Int) (fuel d : Nat), rest.length + 2 ≤ fuel →
      parseElems fuel d (Token.num (Itoa x) :: tailTokens rest) =
        some ((x :: rest).map (fun n => Json.num (Itoa n)), []) := by
  induction rest with
  | nil =>
    intro x fuel d hf
    obtain ⟨f1, rfl⟩ : ∃ f1, fuel = f1 + 2 := ⟨fuel - 2, by simp at hf; omega⟩
    rfl
  | cons y ys ih =>
    intro x fuel d hf
    obtain ⟨f1, rfl⟩ : ∃ f1, fuel = f1 + 2 := ⟨fuel - 2, by omega⟩
    have hrec := ih y (f1 + 1) d (by simp at hf; omega)
    have hstep : parseElems (f1 + 2) d (Token.num (Itoa x) :: tailTokens (y :: ys)) =
        match parseElems (f1 + 1) d (Token.num (Itoa y) :: tailTokens ys) with
        | none => none
        | some (vs, ts3) => some (Json.num (Itoa x) :: vs, ts3) := rfl
    rw [hstep, hrec]
    rfl

/-- The JSON array encoding of a list of integers parses to the array of
their number literals. -/
theorem jsonParse_MarshalIntSlice (xs : List Int) :
    jsonParse (MarshalIntSlice xs) = some (Json.arr (xs.map (fun n => Json.num (Itoa n)))) := by
  cases xs with
  | nil => rfl
  | cons x rest =>
    have hlen := tailTokens_length rest
    have helems := parseElems_ints rest x
      (2 * (Token.lbrack :: Token.num (Itoa x) :: tailTokens rest).length + 1) 1 (by
        simp only [List.length_cons, hlen]; omega)
    have hdepth : ¬ (0 ≥ maxNestingDepth) := by decide
    simp only [jsonParse, tokenize_MarshalIntSlice]
    have hfuel : 2 * (Token.lbrack :: Token.num (Itoa x) :: tailTokens rest).length + 2 =
        (2 * (Token.lbrack :: Token.num (Itoa x) :: tailTokens rest).length + 1) + 1 := rfl
    rw [hfuel]
    simp only [parseValue, hdepth, if_false, helems, Nat.zero_add]

theorem decodeInt_Itoa (n : Int) (hlo : minInt64 ≤ n) (hhi : n ≤ maxInt64) :
    decodeInt (Json.num (Itoa n)) = (n, none) := by
  simp only [decodeInt, ParseInt, parseIntAs_Itoa "ParseInt" n hlo hhi]

theorem decode_ints (xs : List Int) (hx : ∀ x ∈ xs, minInt64 ≤ x ∧ x ≤ maxInt64) :
    (xs.map (fun n => Json.num (Itoa n))).map decodeInt = xs.map (fun n => (n, none)) := by
  induction xs with
  | nil => rfl
  | cons x rest ih =>
    have h1 := hx x (List.mem_cons_self _ _)
    simp only [List.map_cons, decodeInt_Itoa x h1.1 h1.2,
      ih (fun y hy => hx y (List.mem_cons_of_mem _ hy))]

theorem firstError_none (xs : List Int) :
    firstError ((xs.map (fun n => ((n, none) : Int × Option GoError))).map Prod.snd) = none := by
  induction xs with
  | nil => rfl
  | cons x rest ih => simpa [firstError] using ih

/-- Go `json.Unmarshal` into `[]int` reads the JSON array encoding of a list
of integers in the range of `int` back. -/
theorem UnmarshalIntSlice_MarshalIntSlice (xs : List Int)
    (hx : ∀ x ∈ xs, minInt64 ≤ x ∧ x ≤ maxInt64) :
    UnmarshalIntSlice (MarshalIntSlice xs) = (xs, none) := by
  simp only [UnmarshalIntSlice, Unmarshal, jsonParse_MarshalIntSlice, decodeSlice,
    decode_ints xs hx, firstError_none]
  congr 1
  induction xs with
  | nil => rfl
  | cons x rest ih =>
    simp only [List.map_cons, List.cons.injEq, true_and]
    exact ih (fun y hy => hx y (List.mem_cons_of_mem _ hy))

theorem decodeInt_error_iff (e : Json) : (decodeInt e).2 = none ↔ isIntOrNull e = true := by
  cases e with
  | null => simp [decodeInt, isIntOrNull]
  | bool b => simp [decodeInt, isIntOrNull]
  | num lit =>
    simp only [decodeInt, isIntOrNull]
    cases hp : ParseInt lit with
    | mk v oe =>
      cases oe with
      | none => simp
      | some err => simp
  | str s => simp [decodeInt, isIntOrNull]
  | arr es => simp [decodeInt, isIntOrNull]
  | obj ms => simp [decodeInt, isIntOrNull]

theorem firstError_decodeInt (es : List Json) :
    firstError ((es.map decodeInt).map Prod.snd) = none ↔ es.all isIntOrNull = true := by
  induction es with
  | nil => simp [firstError]
  | cons e rest ih =>
    simp only [List.map_cons, List.all_cons, Bool.and_eq_true]
    cases hd : (decodeInt e).2 with
    | none =>
      simp only [firstError, ih]
      have := (decodeInt_error_iff e).mp hd
      simp [this]
    | some err =>
      have hne : ¬ isIntOrNull e = true := by
        intro h
        have := (decodeInt_error_iff e).mpr h
        rw [hd] at this
        cases this
      simp [firstError, hne]

/-- Go `json.Unmarshal` into `[]int` returns no error exactly on the literal
`null` and on an array of integers and `null`s. -/
theorem UnmarshalIntSlice_ok_iff (data : Bytes) :
    (UnmarshalIntSlice data).2 = none ↔
      (isJsonNull data = true ∨ isJsonArrayOfIntOrNull data = true) := by
  simp only [UnmarshalIntSlice, Unmarshal, isJsonNull, isJsonArrayOfIntOrNull]
  cases hp : jsonParse data with
  | none => simp
  | some v =>
    cases v with
    | null => simp [decodeSlice]
    | bool b => simp [decodeSlice]
    | num lit => simp [decodeSlice]
    | str s => simp [decodeSlice]
    | arr es => simpa [decodeSlice] using firstError_decodeInt es
    | obj ms => simp [decodeSlice]

theorem UnmarshalIntSlice_null (data : Bytes) (h : isJsonNull data = true) :
    UnmarshalIntSlice data = ([], none) := by
  simp only [UnmarshalIntSlice, Unmarshal]
  simp only [isJsonNull] at h
  cases hp : jsonParse data with
  | none => rw [hp] at h; cases h
  | some v =>
    rw [hp] at h
    cases v with
    | null => rfl
    | bool b => cases h
    | num lit => cases h
    | str s => cases h
    | arr es => cases h
    | obj ms => cases h

/-! ## The fuel of the tokenizer and of the parser is never used up -/

theorem unescapeAt_length (c ch : Char) (cs rest : Bytes)
    (h : unescapeAt c cs = some (ch, rest)) : rest.length ≤ cs.length := by
  unfold unescapeAt at h
  repeat' split at h
  all_goals first
    | (cases h; done)
    | (simp only [Option.some.injEq, Prod.mk.injEq] at h
       rw [← h.2]
       try simp only [List.length_cons]
       try omega)

/-- A string literal is strictly shorter than the input it was read from. -/
theorem lexString_length (fuel : Nat) :
    ∀ (cs s rest : Bytes), lexString fuel cs = some (s, rest) → rest.length < cs.length := by
  induction fuel with
  | zero => intro cs s rest h; simp [lexString] at h
  | succ f ih =>
    intro cs s rest h
    cases cs with
    | nil => simp [lexString] at h
    | cons c cs =>
      simp only [lexString] at h
      by_cases hq : c = chQuote
      · simp only [hq, if_true, Option.some.injEq, Prod.mk.injEq] at h
        rw [← h.2]; simp
      · simp only [hq, if_false] at h
        cases hu : unescapeAt c cs with
        | none => rw [hu] at h; cases h
        | some r =>
          obtain ⟨ch, tl⟩ := r
          rw [hu] at h
          simp only at h
          have hlen := unescapeAt_length c ch cs tl hu
          cases hl : lexString f tl with
          | none => rw [hl] at h; cases h
          | some r2 =>
            rw [hl] at h
            simp only [Option.map_some', Option.some.injEq, Prod.mk.injEq] at h
            have := ih tl r2.1 r2.2 (by rw [hl])
            rw [h.2] at this
            simp only [List.length_cons]
            omega

/-- The result of reading a string literal does not depend on the fuel, once
the fuel exceeds the length of the input. -/
theorem lexString_fuel (f1 : Nat) :
    ∀ (f2 : Nat) (cs : Bytes), cs.length < f1 → cs.length < f2 →
      lexString f1 cs = lexString f2 cs := by
  induction f1 with
  | zero => intro f2 cs h1; omega
  | succ n ih =>
    intro f2 cs h1 h2
    cases f2 with
    | zero => omega
    | succ m =>
      cases cs with
      | nil => rfl
      | cons c cs =>
        simp only [List.length_cons] at h1 h2
        simp only [lexString]
        by_cases hq : c = chQuote
        · simp only [hq, if_true]
        · simp only [hq, if_false]
          cases hu : unescapeAt c cs with
          | none => rfl
          | some r =>
            obtain ⟨ch, tl⟩ := r
            have hlen := unescapeAt_length c ch cs tl hu
            simp only
            rw [ih m tl (by omega) (by omega)]

theorem lexIntPart_length (cs lit rest : Bytes) (h : lexIntPart cs = some (lit, rest)) :
    rest.length < cs.length := by
  cases cs with
  | nil => simp [lexIntPart] at h
  | cons c cs =>
    simp only [lexIntPart] at h
    split at h
    · simp only [Option.some.injEq, Prod.mk.injEq] at h
      rw [← h.2]; simp
    · split at h
      · simp only [Option.some.injEq, Prod.mk.injEq] at h
        rw [← h.2]
        have := (List.dropWhile_sublist (l := cs) isDigit).length_le
        simp only [List.length_cons]
        omega
      · cases h

theorem lexFracPart_length (cs lit rest : Bytes) (h : lexFracPart cs = some (lit, rest)) :
    rest.length ≤ cs.length := by
  cases cs with
  | nil =>
    simp only [lexFracPart, Option.some.injEq, Prod.mk.injEq] at h
    rw [← h.2]
  | cons c cs =>
    simp only [lexFracPart] at h
    split at h
    · split at h
      · cases h
      · simp only [Option.some.injEq, Prod.mk.injEq] at h
        rw [← h.2]
        have := (List.dropWhile_sublist (l := cs) isDigit).length_le
        simp only [List.length_cons]
        omega
    · simp only [Option.some.injEq, Prod.mk.injEq] at h
      rw [← h.2]

theorem lexExpDigits_length (pre cs lit rest : Bytes)
    (h : lexExpDigits pre cs = some (lit, rest)) : rest.length ≤ cs.length := by
  simp only [lexExpDigits] at h
  split at h
  · cases h
  · simp only [Option.some.injEq, Prod.mk.injEq] at h
    rw [← h.2]
    exact (List.dropWhile_sublist (l := cs) isDigit).length_le

theorem lexExpPart_length (cs lit rest : Bytes) (h : lexExpPart cs = some (lit, rest)) :
    rest.length ≤ cs.length := by
  cases cs with
  | nil =>
    simp only [lexExpPart, Option.some.injEq, Prod.mk.injEq] at h
    rw [← h.2]
  | cons c cs =>
    simp only [lexExpPart] at h
    split at h
    · split at h
      · cases h
      · split at h
        · have := lexExpDigits_length _ _ _ _ h
          simp only [List.length_cons] at this ⊢
          omega
        · have := lexExpDigits_length _ _ _ _ h
          simp only [List.length_cons] at this ⊢
          omega
    · simp only [Option.some.injEq, Prod.mk.injEq] at h
      rw [← h.2]

/-- A number literal is strictly shorter than the input it was read from. -/
theorem lexNumber_length (cs lit rest : Bytes) (h : lexNumber cs = some (lit, rest)) :
    rest.length < cs.length := by
  simp only [lexNumber] at h
  cases h1 : lexIntPart (List.drop
      (match cs with
        | c :: _ => if c = '-' then [c] else []
        | [] => []).length cs) with
  | none => rw [h1] at h; cases h
  | some r1 =>
    obtain ⟨ip, t1⟩ := r1
    rw [h1] at h
    simp only at h
    cases h2 : lexFracPart t1 with
    | none => rw [h2] at h; cases h
    | some r2 =>
      obtain ⟨fp, t2⟩ := r2
      rw [h2] at h
      simp only at h
      cases h3 : lexExpPart t2 with
      | none => rw [h3] at h; cases h
      | some r3 =>
        obtain ⟨ep, t3⟩ := r3
        rw [h3] at h
        simp only [Option.some.injEq, Prod.mk.injEq] at h
        have l1 := lexIntPart_length _ _ _ h1
        have l2 := lexFracPart_length _ _ _ h2
        have l3 := lexExpPart_length _ _ _ h3
        have l0 := List.length_drop
          (match cs with
            | c :: _ => if c = '-' then [c] else []
            | [] => []).length cs
        rw [← h.2]
        omega

/-- A token is read from the input after its first character and never makes
that input longer. -/
theorem nextToken_length (c : Char) (cs rest : Bytes) (t : Option Token)
    (h : nextToken c cs = some (t, rest)) : rest.length ≤ cs.length := by
  unfold nextToken at h
  have hsame : ∀ (tok : Option Token), some (tok, cs) = some (t, rest) →
      rest.length ≤ cs.length := by
    intro tok he
    simp only [Option.some.injEq, Prod.mk.injEq] at he
    rw [← he.2]
  by_cases h0 : isSpace c = true
  · rw [if_pos h0] at h; exact hsame _ h
  rw [if_neg h0] at h
  by_cases h1 : c = '['
  · rw [if_pos h1] at h; exact hsame _ h
  rw [if_neg h1] at h
  by_cases h2 : c = ']'
  · rw [if_pos h2] at h; exact hsame _ h
  rw [if_neg h2] at h
  by_cases h3 : c = chLBrace
  · rw [if_pos h3] at h; exact hsame _ h
  rw [if_neg h3] at h
  by_cases h4 : c = chRBrace
  · rw [if_pos h4] at h; exact hsame _ h
  rw [if_neg h4] at h
  by_cases h5 : c = ':'
  · rw [if_pos h5] at h; exact hsame _ h
  rw [if_neg h5] at h
  by_cases h6 : c = ','
  · rw [if_pos h6] at h; exact hsame _ h
  rw [if_neg h6] at h
  by_cases h7 : c = chQuote
  · rw [if_pos h7] at h
    cases hl : lexString (cs.length + 1) cs with
    | none => rw [hl] at h; cases h
    | some r =>
      rw [hl] at h
      simp only [Option.some.injEq, Prod.mk.injEq] at h
      have := lexString_length _ _ _ _ hl
      rw [← h.2]
      omega
  rw [if_neg h7] at h
  by_cases h8 : c = '-' ∨ isDigit c = true
  · rw [if_pos h8] at h
    cases hl : lexNumber (c :: cs) with
    | none => rw [hl] at h; cases h
    | some r =>
      rw [hl] at h
      simp only [Option.some.injEq, Prod.mk.injEq] at h
      have := lexNumber_length _ _ _ hl
      rw [← h.2]
      simp only [List.length_cons] at this
      omega
  rw [if_neg h8] at h
  by_cases h9 : c = 't'
  · rw [if_pos h9] at h
    repeat' split at h
    all_goals first
      | (cases h; done)
      | (simp only [Option.some.injEq, Prod.mk.injEq] at h
         rw [← h.2]
         simp only [List.length_cons]
         omega)
  rw [if_neg h9] at h
  by_cases h10 : c = 'f'
  · rw [if_pos h10] at h
    repeat' split at h
    all_goals first
      | (cases h; done)
      | (simp only [Option.some.injEq, Prod.mk.injEq] at h
         rw [← h.2]
         simp only [List.length_cons]
         omega)
  rw [if_neg h10] at h
  by_cases h11 : c = 'n'
  · rw [if_pos h11] at h
    repeat' split at h
    all_goals first
      | (cases h; done)
      | (simp only [Option.some.injEq, Prod.mk.injEq] at h
         rw [← h.2]
         simp only [List.length_cons]
         omega)
  rw [if_neg h11] at h
  cases h

/-- The result of the tokenizer does not depend on the fuel, once the fuel
exceeds the length of the input: the fuel of `tokenize` is never used up. -/
theorem lex_fuel (f1 : Nat) :
    ∀ (f2 : Nat) (cs : Bytes), cs.length < f1 → cs.length < f2 → lex f1 cs = lex f2 cs := by
  induction f1 with
  | zero => intro f2 cs h1; omega
  | succ n ih =>
    intro f2 cs h1 h2
    cases f2 with
    | zero => omega
    | succ m =>
      cases cs with
      | nil => rfl
      | cons c cs =>
        simp only [List.length_cons] at h1 h2
        simp only [lex]
        cases hn : nextToken c cs with
        | none => rfl
        | some r =>
          obtain ⟨t, tl⟩ := r
          have hlen := nextToken_length c cs tl t hn
          simp only
          rw [ih m tl (by omega) (by omega)]

/-- A parsed value, element list or member list is strictly shorter than the
tokens it was read from. -/
theorem parse_length (f : Nat) :
    (∀ d ts v rest, parseValue f d ts = some (v, rest) → rest.length < ts.length) ∧
    (∀ d ts vs rest, parseElems f d ts = some (vs, rest) → rest.length < ts.length) ∧
    (∀ d ts ms rest, parseMembers f d ts = some (ms, rest) → rest.length < ts.length) := by
  induction f with
  | zero =>
    refine ⟨?_, ?_, ?_⟩ <;> intro d ts v rest h
    · simp [parseValue] at h
    · simp [parseElems] at h
    · simp [parseMembers] at h
  | succ n ih =>
    obtain ⟨ihV, ihE, ihM⟩ := ih
    refine ⟨?_, ?_, ?_⟩
    · intro d ts v rest h
      cases ts with
      | nil => simp [parseValue] at h
      | cons t ts =>
        cases t with
        | tnull | ttrue | tfalse | num _ | str _ =>
          simp only [parseValue, Option.some.injEq, Prod.mk.injEq] at h
          rw [← h.2]; simp
        | rbrace | rbrack | colon | comma => simp [parseValue] at h
        | lbrack =>
          simp only [parseValue] at h
          split at h
          · cases h
          · split at h
            · simp only [Option.some.injEq, Prod.mk.injEq] at h
              rw [← h.2]; simp only [List.length_cons]; omega
            · cases he : parseElems n (d + 1) ts with
              | none => rw [he] at h; cases h
              | some r =>
                rw [he] at h
                simp only [Option.some.injEq, Prod.mk.injEq] at h
                have := ihE _ _ _ _ he
                rw [← h.2]; simp only [List.length_cons]; omega
        | lbrace =>
          simp only [parseValue] at h
          split at h
          · cases h
          · split at h
            · simp only [Option.some.injEq, Prod.mk.injEq] at h
              rw [← h.2]; simp only [List.length_cons]; omega
            · cases he : parseMembers n (d + 1) ts with
              | none => rw [he] at h; cases h
              | some r =>
                rw [he] at h
                simp only [Option.some.injEq, Prod.mk.injEq] at h
                have := ihM _ _ _ _ he
                rw [← h.2]; simp only [List.length_cons]; omega
    · intro d ts vs rest h
      simp only [parseElems] at h
      cases hv : parseValue n d ts with
      | none => rw [hv] at h; cases h
      | some r =>
        obtain ⟨v, ts1⟩ := r
        rw [hv] at h
        have l1 := ihV _ _ _ _ hv
        simp only at h
        split at h
        · simp only [Option.some.injEq, Prod.mk.injEq] at h
          rw [← h.2]; simp only [List.length_cons] at l1; omega
        · rename_i ts2
          cases he : parseElems n d ts2 with
          | none => rw [he] at h; cases h
          | some r2 =>
            rw [he] at h
            simp only [Option.some.injEq, Prod.mk.injEq] at h
            have := ihE _ _ _ _ he
            rw [← h.2]; simp only [List.length_cons] at l1; omega
        · cases h
    · intro d ts ms rest h
      simp only [parseMembers] at h
      split at h
      · rename_i k ts0
        cases hv : parseValue n d ts0 with
        | none => rw [hv] at h; cases h
        | some r =>
          obtain ⟨v, ts1⟩ := r
          rw [hv] at h
          have l1 := ihV _ _ _ _ hv
          simp only at h
          split at h
          · simp only [Option.some.injEq, Prod.mk.injEq] at h
            rw [← h.2]; simp only [List.length_cons] at l1 ⊢; omega
          · rename_i ts2
            cases he : parseMembers n d ts2 with
            | none => rw [he] at h; cases h
            | some r2 =>
              rw [he] at h
              simp only [Option.some.injEq, Prod.mk.injEq] at h
              have := ihM _ _ _ _ he
              rw [← h.2]; simp only [List.length_cons] at l1 ⊢; omega
          · cases h
      · cases h

/-- The result of the parser does not depend on the fuel, once the fuel is
twice the number of tokens plus one (plus two for elements and members): the
fuel of `jsonParse` is never used up. -/
theorem parse_fuel (f1 : Nat) :
    ∀ f2 : Nat,
    (∀ d ts, 2 * ts.length + 1 ≤ f1 → 2 * ts.length + 1 ≤ f2 →
      parseValue f1 d ts = parseValue f2 d ts) ∧
    (∀ d ts, 2 * ts.length + 2 ≤ f1 → 2 * ts.length + 2 ≤ f2 →
      parseElems f1 d ts = parseElems f2 d ts) ∧
    (∀ d ts, 2 * ts.length + 2 ≤ f1 → 2 * ts.length + 2 ≤ f2 →
      parseMembers f1 d ts = parseMembers f2 d ts) := by
  induction f1 with
  | zero =>
    intro f2
    refine ⟨?_, ?_, ?_⟩ <;> intro d ts h1 <;> omega
  | succ n ih =>
    intro f2
    cases f2 with
    | zero => refine ⟨?_, ?_, ?_⟩ <;> intro d ts _ h2 <;> omega
    | succ m =>
      obtain ⟨ihV, ihE, ihM⟩ := ih m
      refine ⟨?_, ?_, ?_⟩
      · intro d ts h1 h2
        cases ts with
        | nil => rfl
        | cons t ts =>
          simp only [List.length_cons] at h1 h2
          cases t with
          | tnull | ttrue | tfalse | num _ | str _ | rbrace | rbrack | colon | comma => rfl
          | lbrack =>
            simp only [parseValue]
            rw [ihE (d + 1) ts (by omega) (by omega)]
          | lbrace =>
            simp only [parseValue]
            rw [ihM (d + 1) ts (by omega) (by omega)]
      · intro d ts h1 h2
        simp only [parseElems]
        rw [ihV d ts (by omega) (by omega)]
        cases hv : parseValue m d ts with
        | none => rfl
        | some r =>
          obtain ⟨v, ts1⟩ := r
          have l1 := (parse_length m).1 _ _ _ _ hv
          cases ts1 with
          | nil => rfl
          | cons t ts2 =>
            simp only [List.length_cons] at l1
            cases t with
            | comma =>
              simp only
              rw [ihE d ts2 (by omega) (by omega)]
            | _ => rfl
      · intro d ts h1 h2
        cases ts with
        | nil => rfl
        | cons t ts =>
          cases t with
          | str k =>
            cases ts with
            | nil => rfl
            | cons t2 ts0 =>
              simp only [List.length_cons] at h1 h2
              cases t2 with
              | colon =>
                simp only [parseMembers]
                rw [ihV d ts0 (by omega) (by omega)]
                cases hv : parseValue m d ts0 with
                | none => rfl
                | some r =>
                  obtain ⟨v, ts1⟩ := r
                  have l1 := (parse_length m).1 _ _ _ _ hv
                  cases ts1 with
                  | nil => rfl
                  | cons t ts2 =>
                    simp only [List.length_cons] at l1
                    cases t with
                    | comma =>
                      simp only
                      rw [ihM d ts2 (by omega) (by omega)]
                    | _ => rfl
              | _ => rfl
          | _ => rfl

/-- With any fuel above the length of the text `tokenize` gives the same
tokens, and with any fuel from twice the number of tokens plus one on the
parser gives the same value: neither runs out of fuel in `jsonParse`. -/
theorem jsonParse_fuel (data : Bytes) (ts : List Token) (f g : Nat)
    (hf : data.length < f) (hg : 2 * ts.length + 1 ≤ g) :
    lex f data = tokenize data ∧
    parseValue g 0 ts = parseValue (2 * ts.length + 2) 0 ts :=
  ⟨lex_fuel f (data.length + 1) data hf (Nat.lt_succ_self _),
    (parse_fuel g (2 * ts.length + 2)).1 0 ts hg (by omega)⟩

/-! ## Projection content, fetcher and test helpers -/

theorem UnmarshalStringSlice_null (data : Bytes) (h : isJsonNull data = true) :
    UnmarshalStringSlice data = ([], none) := by
  simp only [UnmarshalStringSlice, Unmarshal]
  simp only [isJsonNull] at h
  cases hp : jsonParse data with
  | none => rw [hp] at h; cases h
  | some v =>
    rw [hp] at h
    cases v with
    | null => rfl
    | bool b => cases h
    | num lit => cases h
    | str s => cases h
    | arr es => cases h
    | obj ms => cases h

/-- The content of a projection that exists and can be read is the rendering
of the slide with the selected name. -/
theorem projectionContent_render (ds : Datastore) (slides : SlideStore) (id : Int) (v : Bytes)
    (p : Projection) (name : Bytes)
    (hid : ds (projectionKey id "id") = some v)
    (hread : readProjection ds id = (p, none))
    (hname : p.slideName = some name) :
    projectionContent ds slides id = some (renderSlide ds slides name p) := by
  simp only [projectionContent, hid, hread, hname]

theorem getSlider_test1 (marshal : Projection → Bytes × Option GoError) :
    ∃ s, (testSlides marshal).GetSlider "test1".toList = some s ∧
      ∀ ds p, s ds p =
        (chLBrace :: (quoted "value" ++ ':' :: (quoted "abc" ++ [chRBrace])), none) :=
  ⟨_, rfl, fun _ _ => rfl⟩

theorem getSlider_test_model (marshal : Projection → Bytes × Option GoError) :
    ∃ s, (testSlides marshal).GetSlider "test_model".toList = some s ∧
      ∀ ds p, ds "test_model/1/field".toList = none → s ds p =
        (chLBrace :: (quoted "value" ++ ':' :: (quoted "test_model" ++ [chRBrace])), none) := by
  refine ⟨_, rfl, ?_⟩
  intro ds p h
  simp only [h]

/-- A request of a fetcher without recorded requests is executed on its own. -/
theorem execute_single (f : Dsfetch.Fetch) (data : Datastore) (a : Dsfetch.Accessor) (id : Int)
    (hreq : f.requested = []) (hget : ∀ keys, f.getter keys = .ok data) :
    (a.Lazy id f).Execute =
      (([(Dsfetch.Request.execute data ⟨a.key id, a.required, a.zero, a.decode⟩).1],
        (Dsfetch.Request.execute data ⟨a.key id, a.required, a.zero, a.decode⟩).2),
       { f with requested := [], touched := f.touched ++ [a.key id] }) := by
  simp only [Dsfetch.Accessor.Lazy, hreq, List.nil_append, Dsfetch.Fetch.Execute, hget,
    List.map_cons, List.map_nil]
  cases h : (Dsfetch.Request.execute data ⟨a.key id, a.required, a.zero, a.decode⟩).2 <;>
    simp [firstError]

theorem groupsKeyText_head (m : Int) : ∃ t, groupsKeyText m = 'u' :: t := ⟨_, rfl⟩

theorem groupKeyText_head (g : Int) (field : String) : ∃ t, groupKeyText g field = 'g' :: t :=
  ⟨_, rfl⟩

theorem meetingIDKeyText_head (m : Int) : ∃ t, meetingIDKeyText m = 'm' :: t := ⟨_, rfl⟩

theorem groupsKeyText_ne_group (m g : Int) (field : String) :
    groupsKeyText m ≠ groupKeyText g field := by
  obtain ⟨t1, h1⟩ := groupsKeyText_head m
  obtain ⟨t2, h2⟩ := groupKeyText_head g field
  rw [h1, h2]
  intro h
  have hc : 'u' = 'g' := (List.cons.inj h).1
  exact absurd hc (by decide)

theorem groupsKeyText_ne_meeting (m n : Int) : groupsKeyText m ≠ meetingIDKeyText n := by
  obtain ⟨t1, h1⟩ := groupsKeyText_head m
  obtain ⟨t2, h2⟩ := meetingIDKeyText_head n
  rw [h1, h2]
  intro h
  have hc : 'u' = 'm' := (List.cons.inj h).1
  exact absurd hc (by decide)

/-- For every meeting `withPerms` puts the group 1337 into the group list of
user 1, when the four keys are valid and the list was not there before. -/
theorem withPerms_groups_value (env : TestEnv) (meetingID : Int) (perms : List TPermission)
    (td : testData)
    (hv1 : env.validKey (groupsKeyText meetingID) = true)
    (hv2 : env.validKey (groupKeyText 1337 "id") = true)
    (hv3 : env.validKey (groupKeyText 1337 "permissions") = true)
    (hv4 : env.validKey (meetingIDKeyText meetingID) = true)
    (hnil : td.data (groupsKeyText meetingID) = none) :
    ∃ td1, withPerms env meetingID perms td = .ok td1 ∧
      td1.data (groupsKeyText meetingID) = some (MarshalIntSlice [1337]) ∧
      td1.data (groupKeyText 1337 "permissions") = some (permString env perms) := by
  have hg : (1000 : Int) + 337 = 1337 := by decide
  have hne1 := groupsKeyText_ne_group meetingID 1337 "id"
  have hne2 := groupsKeyText_ne_group meetingID 1337 "permissions"
  have hne3 := groupsKeyText_ne_meeting meetingID meetingID
  have hne4 : groupKeyText 1337 "permissions" ≠ meetingIDKeyText meetingID := by
    obtain ⟨t1, h1⟩ := groupKeyText_head 1337 "permissions"
    obtain ⟨t2, h2⟩ := meetingIDKeyText_head meetingID
    rw [h1, h2]
    intro h
    have hc : 'g' = 'm' := (List.cons.inj h).1
    exact absurd hc (by decide)
  have happ : jsonAppend none [1337] = .ok (MarshalIntSlice [1337]) := rfl
  have hrun : withPerms env meetingID perms td = .ok ⟨td.name,
      setKey (setKey (setKey (setKey td.data (groupsKeyText meetingID) (MarshalIntSlice [1337]))
        (groupKeyText 1337 "id") (Itoa 1337))
        (groupKeyText 1337 "permissions") (permString env perms))
        (meetingIDKeyText meetingID) (Itoa meetingID),
      td.expect, td.expectOne, td.requestUserID, td.elementIDs⟩ := by
    simp only [withPerms, hg, MustKey, hv1, hv2, hv3, hv4, if_true, hnil, happ]
  refine ⟨_, hrun, ?_, ?_⟩
  · simp only [setKey, hne1, hne2, hne3, if_false, if_true]
  · simp only [setKey, hne4, if_false, if_true]

/-! ## Reading a JSON array of strings -/

theorem simpleChar_facts (c : Char) (h : simpleChar c = true) :
    32 ≤ c.toNat ∧ c ≠ chQuote ∧ c ≠ chBackslash := by
  simpa [simpleChar] using h

theorem unescapeAt_simple (c : Char) (cs : Bytes) (h : simpleChar c = true) :
    unescapeAt c cs = some (c, cs) := by
  obtain ⟨h32, _, hb⟩ := simpleChar_facts c h
  have hlt : ¬ c.toNat < 32 := by omega
  unfold unescapeAt
  rw [if_neg hb, if_neg hlt]

/-- A string of characters that need no escape is read up to its closing
quote. -/
theorem lexString_simple (s : Bytes) :
    ∀ (rest : Bytes) (fuel : Nat), (∀ c ∈ s, simpleChar c = true) → s.length < fuel →
      lexString fuel (s ++ chQuote :: rest) = some (s, rest) := by
  induction s with
  | nil =>
    intro rest fuel _ hf
    obtain ⟨f1, rfl⟩ : ∃ f1, fuel = f1 + 1 := ⟨fuel - 1, by simp at hf; omega⟩
    simp only [List.nil_append, lexString, if_true]
  | cons c cs ih =>
    intro rest fuel hs hf
    obtain ⟨f1, rfl⟩ : ∃ f1, fuel = f1 + 1 := ⟨fuel - 1, by simp at hf; omega⟩
    have hc := hs c (List.mem_cons_self _ _)
    obtain ⟨_, hq, _⟩ := simpleChar_facts c hc
    have hrec := ih rest f1 (fun x hx => hs x (List.mem_cons_of_mem _ hx))
      (by simp only [List.length_cons] at hf; omega)
    simp only [List.cons_append, lexString, if_neg hq, unescapeAt_simple c _ hc,
      List.append_eq, hrec, Option.map_some']

theorem nextToken_quote (cs : Bytes) :
    nextToken chQuote cs =
      match lexString (cs.length + 1) cs with
      | none => none
      | some (s, rest) => some (some (Token.str s), rest) := rfl

/-- Tokenizing a string literal of characters that need no escape. -/
theorem lex_string (fuel : Nat) (t rest : Bytes) (ht : ∀ c ∈ t, simpleChar c = true) :
    lex (fuel + 1) (chQuote :: (t ++ chQuote :: rest)) =
      (lex fuel rest).map (fun ts => Token.str t :: ts) := by
  have hl := lexString_simple t rest ((t ++ chQuote :: rest).length + 1) ht (by
    simp only [List.length_append, List.length_cons]; omega)
  simp only [lex, nextToken_quote, hl]
  rfl

/-- Tokenizing the tail of a JSON array of strings. -/
theorem lex_stringsTail (ts : List Bytes) :
    ∀ fuel, 2 * ts.length + 2 ≤ fuel → (∀ t ∈ ts, ∀ c ∈ t, simpleChar c = true) →
      lex fuel (stringsTail ts) = some (strTailTokens ts) := by
  induction ts with
  | nil =>
    intro fuel hf _
    obtain ⟨f1, rfl⟩ : ∃ f1, fuel = f1 + 2 := ⟨fuel - 2, by simp at hf; omega⟩
    rfl
  | cons t rest ih =>
    intro fuel hf hs
    obtain ⟨f1, rfl⟩ : ∃ f1, fuel = f1 + 2 := ⟨fuel - 2, by omega⟩
    have hstep : lex (f1 + 2) (stringsTail (t :: rest)) =
        (lex (f1 + 1) (chQuote :: (t ++ chQuote :: stringsTail rest))).map
          (fun ts => Token.comma :: ts) := rfl
    rw [hstep, lex_string f1 t _ (hs t (List.mem_cons_self _ _)),
      ih f1 (by simp at hf; omega) (fun x hx => hs x (List.mem_cons_of_mem _ hx))]
    rfl

theorem stringsTail_length (ts : List Bytes) : 2 * ts.length + 1 ≤ (stringsTail ts).length := by
  induction ts with
  | nil => simp [stringsTail]
  | cons t rest ih =>
    simp only [stringsTail, List.length_cons, List.length_append]
    omega

theorem strTailTokens_length (ts : List Bytes) :
    (strTailTokens ts).length = 2 * ts.length + 1 := by
  induction ts with
  | nil => rfl
  | cons t rest ih => simp only [strTailTokens, List.length_cons, ih]; omega

/-- The tokens of a JSON array of strings. -/
theorem tokenize_jsonStringArray (t : Bytes) (rest : List Bytes)
    (hs : ∀ x ∈ t :: rest, ∀ c ∈ x, simpleChar c = true) :
    tokenize (jsonStringArray (t :: rest)) =
      some (Token.lbrack :: Token.str t :: strTailTokens rest) := by
  have hlen := stringsTail_length rest
  have hfuel : ∃ f1, (jsonStringArray (t :: rest)).length + 1 = f1 + 2 ∧
      2 * rest.length + 2 ≤ f1 := by
    refine ⟨(jsonStringArray (t :: rest)).length - 1, ?_, ?_⟩ <;>
      simp only [jsonStringArray, List.length_cons, List.length_append] <;> omega
  obtain ⟨f1, hf1, hf2⟩ := hfuel
  unfold tokenize
  rw [hf1]
  have hstep : lex (f1 + 2) (jsonStringArray (t :: rest)) =
      (lex (f1 + 1) (chQuote :: (t ++ chQuote :: stringsTail rest))).map
        (fun ts => Token.lbrack :: ts) := rfl
  rw [hstep, lex_string f1 t _ (hs t (List.mem_cons_self _ _)),
    lex_stringsTail rest f1 hf2 (fun x hx => hs x (List.mem_cons_of_mem _ hx))]
  rfl

/-- Parsing the elements of a JSON array of strings. -/
theorem parseElems_strs (rest : List Bytes) :
    ∀ (t : Bytes) (fuel d : Nat), rest.length + 2 ≤ fuel →
      parseElems fuel d (Token.str t :: strTailTokens rest) =
        some ((t :: rest).map (fun x => Json.str x), []) := by
  induction rest with
  | nil =>
    intro t fuel d hf
    obtain ⟨f1, rfl⟩ : ∃ f1, fuel = f1 + 2 := ⟨fuel - 2, by simp at hf; omega⟩
    rfl
  | cons y ys ih =>
    intro t fuel d hf
    obtain ⟨f1, rfl⟩ : ∃ f1, fuel = f1 + 2 := ⟨fuel - 2, by omega⟩
    have hrec := ih y (f1 + 1) d (by simp at hf; omega)
    have hstep : parseElems (f1 + 2) d (Token.str t :: strTailTokens (y :: ys)) =
        match parseElems (f1 + 1) d (Token.str y :: strTailTokens ys) with
        | none => none
        | some (vs, ts3) => some (Json.str t :: vs, ts3) := rfl
    rw [hstep, hrec]
    rfl

/-- A JSON array of strings parses to the array of its strings. -/
theorem jsonParse_jsonStringArray (ts : List Bytes)
    (hs : ∀ x ∈ ts, ∀ c ∈ x, simpleChar c = true) :
    jsonParse (jsonStringArray ts) = some (Json.arr (ts.map (fun x => Json.str x))) := by
  cases ts with
  | nil => rfl
  | cons t rest =>
    have hlen := strTailTokens_length rest
    have helems := parseElems_strs rest t
      (2 * (Token.lbrack :: Token.str t :: strTailTokens rest).length + 1) 1 (by
        simp only [List.length_cons, hlen]; omega)
    have hdepth : ¬ (0 ≥ maxNestingDepth) := by decide
    simp only [jsonParse, tokenize_jsonStringArray t rest hs]
    have hfuel : 2 * (Token.lbrack :: Token.str t :: strTailTokens rest).length + 2 =
        (2 * (Token.lbrack :: Token.str t :: strTailTokens rest).length + 1) + 1 := rfl
    rw [hfuel]
    simp only [parseValue, hdepth, if_false, helems, Nat.zero_add]

theorem decode_strs (ts : List Bytes) :
    ((ts.map (fun x => Json.str x)).map decodeString).map Prod.fst = ts ∧
    firstError (((ts.map (fun x => Json.str x)).map decodeString).map Prod.snd) = none := by
  induction ts with
  | nil => exact ⟨rfl, rfl⟩
  | cons t rest ih =>
    obtain ⟨h1, h2⟩ := ih
    constructor
    · simp only [List.map_cons, decodeString, h1]
    · simp only [List.map_cons, decodeString, firstError, h2]

/-- Go `json.Unmarshal` into `[]string` reads a JSON array of strings whose
characters need no escape back. -/
theorem UnmarshalStringSlice_jsonStringArray (ts : List Bytes)
    (hs : ∀ x ∈ ts, ∀ c ∈ x, simpleChar c = true) :
    UnmarshalStringSlice (jsonStringArray ts) = (ts, none) := by
  obtain ⟨h1, h2⟩ := decode_strs ts
  simp only [UnmarshalStringSlice, Unmarshal, jsonParse_jsonStringArray ts hs, decodeSlice,
    h1, h2]

/-! ## The calls of the restricter -/

/-- The state after `decodedRestricter` is the state after one `Restrict` call
for the key list `[key]`, and its result is the one of the method without
state on the answers of the restricter in the state before. -/
theorem traced_decodedRestricter {σ : Type} (i : Traced.RestrictedIDs σ) (key : String) (s : σ) :
    (i.decodedRestricter key s).2 = (i.r.Restrict i.user [key] s).2 ∧
    (i.decodedRestricter key s).1 =
      (RestrictedIDs.mk i.user (Traced.frozen i.r s)).decodedRestricter key := by
  unfold Traced.RestrictedIDs.decodedRestricter RestrictedIDs.decodedRestricter Traced.frozen
  dsimp only
  generalize i.r.Restrict i.user [key] s = p
  obtain ⟨ans, s1⟩ := p
  cases ans with
  | error e => exact ⟨rfl, rfl⟩
  | ok data =>
    dsimp only
    cases data key with
    | none => exact ⟨rfl, rfl⟩
    | some v => exact ⟨rfl, rfl⟩

/-- The state after `GenericIDs` is the state after one `Restrict` call for
the key list `[key]`, and its result is the one of the method without state on
the answers of the restricter in the state before. -/
theorem traced_GenericIDs {σ : Type} (i : Traced.RestrictedIDs σ) (key : String) (s : σ) :
    (i.GenericIDs key s).2 = (i.r.Restrict i.user [key] s).2 ∧
    (i.GenericIDs key s).1 =
      (RestrictedIDs.mk i.user (Traced.frozen i.r s)).GenericIDs key := by
  obtain ⟨h1, h2⟩ := traced_decodedRestricter i key s
  unfold Traced.RestrictedIDs.GenericIDs RestrictedIDs.GenericIDs
  rw [← h2, ← h1]
  generalize i.decodedRestricter key s = p
  obtain ⟨⟨data, oe⟩, s1⟩ := p
  cases oe with
  | some e => exact ⟨rfl, rfl⟩
  | none =>
    dsimp only
    generalize UnmarshalStringSlice data = q
    obtain ⟨vals, oe2⟩ := q
    cases oe2 with
    | some e => exact ⟨rfl, rfl⟩
    | none => exact ⟨rfl, rfl⟩

/-! ## Claims -/

/-- C1: when the `Restrict` call succeeds with a map that has no entry for the
requested key, each of `ID`, `IDList`, `GenericID`, `GenericIDs` and `Template`
returns the zero value together with `ErrUnknownKey` itself, not wrapped. -/
theorem restrictedIDs_unknownKey (i : RestrictedIDs) (key : String)
    (data : String → Option Bytes)
    (hr : i.r.Restrict i.user [key] = .ok data) (hk : data key = none) :
    i.ID key = (0, some ErrUnknownKey) ∧
    i.IDList key = ([], some ErrUnknownKey) ∧
    i.GenericID key = ([], some ErrUnknownKey) ∧
    i.GenericIDs key = ([], some ErrUnknownKey) ∧
    i.Template key = ([], some ErrUnknownKey) := by
  have hd : i.decodedRestricter key = ([], some ErrUnknownKey) := by
    simp [RestrictedIDs.decodedRestricter, hr, hk]
  refine ⟨?_, ?_, ?_, ?_, ?_⟩
  · simp [RestrictedIDs.ID, hd]
  · simp [RestrictedIDs.IDList, hd]
  · simp [RestrictedIDs.GenericID, hd]
  · simp [RestrictedIDs.GenericIDs, hd]
  · simp [RestrictedIDs.Template, RestrictedIDs.GenericIDs, hd]

/-- Example for C1: the restricter knows only `a/1/b`; asking for `a/1/c` gives
`ErrUnknownKey`. -/
theorem restrictedIDs_unknownKey_witness :
    (singleEntry "a/1/b" ['5']).Restrict 7 ["a/1/c"] =
      .ok (fun key => if key = "a/1/b" then some ['5'] else none) ∧
    (RestrictedIDs.mk 7 (singleEntry "a/1/b" ['5'])).ID "a/1/c" = (0, some ErrUnknownKey) ∧
    (RestrictedIDs.mk 7 (singleEntry "a/1/b" ['5'])).IDList "a/1/c" = ([], some ErrUnknownKey) :=
  ⟨rfl,
    (restrictedIDs_unknownKey ⟨7, singleEntry "a/1/b" ['5']⟩ "a/1/c" _ rfl (by decide)).1,
    (restrictedIDs_unknownKey ⟨7, singleEntry "a/1/b" ['5']⟩ "a/1/c" _ rfl (by decide)).2.1⟩

/-- C2: for a chat group `g` and a list of chat messages that all belong to `g`,
when the reads of the meeting, the permissions, the read groups and the authors
succeed, `ChatMessage.see` returns a result, and a message id `m` is in it if and
only if it was asked about and the user has `chat.can_manage` in the meeting of
`g`, or is in one of the read groups of `g`, or is the author of `m`. -/
theorem chatMessage_see_iff (ds : Fetch) (mperms : MeetingPermission) (g mid : Int)
    (perms : Permission) (rg ids : List Int)
    (hg : ∀ m ∈ ids, ds.ChatMessage_ChatGroupID m = .ok g)
    (hmid : ds.ChatGroup_MeetingID g = .ok mid)
    (hperms : mperms.Meeting mid = .ok perms)
    (hrg : ds.ChatGroup_ReadGroupIDs g = .ok rg)
    (hauth : ∀ m ∈ ids, ∃ a, ds.ChatMessage_UserID m = .ok a) :
    ∃ r, ChatMessage.see ds mperms ids = .ok r ∧
      ∀ m, m ∈ r ↔ (m ∈ ids ∧ (perms.Has ChatCanManage = true ∨
        (∃ gid ∈ rg, perms.InGroup gid = true) ∨
        ds.ChatMessage_UserID m = .ok mperms.UserID)) := by
  apply eachRelationField_filter ds.ChatMessage_ChatGroupID ids (ChatMessage.seeGroup ds mperms)
    (fun m => perms.Has ChatCanManage = true ∨ (∃ gid ∈ rg, perms.InGroup gid = true) ∨
      ds.ChatMessage_UserID m = .ok mperms.UserID)
  · exact fun x hx => ⟨g, hg x hx⟩
  · intro k grp hne hgrp
    obtain ⟨x0, hx0⟩ := List.exists_mem_of_ne_nil grp hne
    have hk : g = k := by
      have := (hgrp x0 hx0).2
      rw [hg x0 (hgrp x0 hx0).1] at this
      exact Except.ok.inj this
    subst hk
    exact seeGroup_filter ds mperms g mid perms rg grp hmid hperms hrg
      (fun m hm => hauth m (hgrp m hm).1)

/-- Example for C2: user 2 without permission and outside the read group sees
the own message 2 and not message 1. -/
theorem chatMessage_see_iff_witness :
    ∃ r, ChatMessage.see mixedDs strangerAfter [1, 2] = .ok r ∧ 2 ∈ r ∧ 1 ∉ r := by
  obtain ⟨r, hr, hiff⟩ := chatMessage_see_iff mixedDs strangerAfter 1 1 noPermission [7] [1, 2]
    (fun _ _ => rfl) rfl rfl rfl (fun m _ => ⟨m, rfl⟩)
  refine ⟨r, hr, (hiff 2).mpr ⟨by simp, Or.inr (Or.inr rfl)⟩, fun h => ?_⟩
  rcases ((hiff 1).mp h).2 with h1 | ⟨_, _, h1⟩ | h1
  · cases h1
  · cases h1
  · have h2 : (1 : Int) = 2 := Except.ok.inj h1
    omega

/-- C3 (as stated, refuted): user 1 wrote `chat_message/1`; the message is
returned while user 1 holds `chat.can_manage` and is still returned after the
permission is revoked, with the datastore unchanged. -/
theorem chatMessage_revoke_counterexample :
    revokeBefore.Meeting 1 = .ok onlyChatManage ∧ onlyChatManage.Has ChatCanManage = true ∧
    ChatMessage.see revokeDs revokeBefore [1] = .ok [1] ∧
    revokeAfter.Meeting 1 = .ok noPermission ∧ noPermission.Has ChatCanManage = false ∧
    ChatMessage.see revokeDs revokeAfter [1] = .ok [1] :=
  ⟨rfl, by decide, rfl, rfl, rfl, rfl⟩

/-- C3 (amended): a chat message `m` that `ChatMessage.see` returns while the
user holds `chat.can_manage` in the meeting of the message is not returned once
the user does not hold it, provided the user then is in none of the read groups
of the chat group and is not the author of `m`; the datastore is the same in
both calls and all reads succeed. -/
theorem chatMessage_revoke_hidden (ds : Fetch) (before after : MeetingPermission)
    (ids : List Int) (m g mid : Int) (pb pa : Permission) (rg : List Int)
    (hm : m ∈ ids)
    (hrb : ∀ x ∈ ids, ChatMessage.readable ds before x)
    (hra : ∀ x ∈ ids, ChatMessage.readable ds after x)
    (hg : ds.ChatMessage_ChatGroupID m = .ok g)
    (hmid : ds.ChatGroup_MeetingID g = .ok mid)
    (hb : before.Meeting mid = .ok pb) (hbHas : pb.Has ChatCanManage = true)
    (ha : after.Meeting mid = .ok pa) (haHas : pa.Has ChatCanManage = false)
    (hrg : ds.ChatGroup_ReadGroupIDs g = .ok rg)
    (hout : ∀ gid ∈ rg, pa.InGroup gid = false)
    (hauthor : ds.ChatMessage_UserID m ≠ .ok after.UserID) :
    (∃ r, ChatMessage.see ds before ids = .ok r ∧ m ∈ r) ∧
    (∃ r, ChatMessage.see ds after ids = .ok r ∧ m ∉ r) := by
  obtain ⟨r1, hr1, hiff1⟩ := chatMessage_see_canSee ds before ids hrb
  obtain ⟨r2, hr2, hiff2⟩ := chatMessage_see_canSee ds after ids hra
  refine ⟨⟨r1, hr1, (hiff1 m).mpr ⟨hm, ?_⟩⟩, ⟨r2, hr2, fun h => ?_⟩⟩
  · simp [ChatMessage.canSee, hg, hmid, hb, hbHas]
  · have hcan := ((hiff2 m).mp h).2
    obtain ⟨_, _, _, _, a, _, _, _, _, hma⟩ := hra m hm
    have hne : a ≠ after.UserID := fun h => hauthor (by rw [hma, h])
    have hnone : rg.any pa.InGroup = false := by
      rw [List.any_eq_false]
      intro x hx
      simp [hout x hx]
    simp [ChatMessage.canSee, hg, hmid, ha, haHas, hrg, hma, hne, hnone] at hcan

/-- Example for C3 (amended): user 2 sees `chat_message/1` of user 1 only while
holding `chat.can_manage`. -/
theorem chatMessage_revoke_hidden_witness :
    (∃ r, ChatMessage.see revokeDs strangerBefore [1] = .ok r ∧ (1 : Int) ∈ r) ∧
    (∃ r, ChatMessage.see revokeDs strangerAfter [1] = .ok r ∧ (1 : Int) ∉ r) :=
  chatMessage_revoke_hidden revokeDs strangerBefore strangerAfter [1] 1 1 1
    onlyChatManage noPermission [] (by simp)
    (fun x hx => by
      have hx1 : x = 1 := by simpa using hx
      subst hx1
      exact ⟨1, 1, onlyChatManage, [], 1, rfl, rfl, rfl, rfl, rfl⟩)
    (fun x hx => by
      have hx1 : x = 1 := by simpa using hx
      subst hx1
      exact ⟨1, 1, noPermission, [], 1, rfl, rfl, rfl, rfl, rfl⟩)
    rfl rfl rfl (by decide) rfl rfl rfl (by simp)
    (fun h => by
      have h2 : (1 : Int) = 2 := Except.ok.inj h
      omega)

/-- C4: for a list of personal notes whose `user_id` can be read,
`PersonalNote.see` returns a result, and a note id is in it if and only if it was
asked about and the `user_id` of the note is the id of the requesting user. -/
theorem personalNote_see_iff (ds : Fetch) (mperms : MeetingPermission) (ids : List Int)
    (hread : ∀ id ∈ ids, ∃ u, ds.PersonalNote_UserID id = .ok u) :
    ∃ r, PersonalNote.see ds mperms ids = .ok r ∧
      ∀ id, id ∈ r ↔ (id ∈ ids ∧ ds.PersonalNote_UserID id = .ok mperms.UserID) :=
  personalNote_see_filter ds mperms ids hread

/-- Example for C4: of the notes 1, 2 and 3 user 1 gets those whose `user_id`
is 1. -/
theorem personalNote_see_iff_witness :
    ∃ r, PersonalNote.see notesDs revokeAfter [1, 2, 3] = .ok r ∧
      ∀ id, id ∈ r ↔ (id ∈ [1, 2, 3] ∧ notesDs.PersonalNote_UserID id = .ok 1) :=
  personalNote_see_iff notesDs revokeAfter [1, 2, 3] (fun id hid => by
    have h : id = 1 ∨ id = 2 ∨ id = 3 := by simpa using hid
    rcases h with h | h | h <;> subst h
    · exact ⟨1, rfl⟩
    · exact ⟨2, rfl⟩
    · exact ⟨1, rfl⟩)

/-- C5: `PersonalNote.SuperAdmin` is `PersonalNote.Modes` for every mode name,
so there is no short-circuit for the superadmin: the restricter that
`SuperAdmin` gives for mode A does not return a note whose `user_id` differs
from the id of the requesting user. -/
theorem personalNote_superAdmin (mode : String) (ds : Fetch) (mperms : MeetingPermission)
    (ids : List Int) (id u : Int)
    (hread : ∀ x ∈ ids, ∃ v, ds.PersonalNote_UserID x = .ok v)
    (hu : ds.PersonalNote_UserID id = .ok u) (hne : u ≠ mperms.UserID) :
    PersonalNote.SuperAdmin mode = PersonalNote.Modes mode ∧
    ∃ f, PersonalNote.SuperAdmin "A" = some f ∧
      ∃ r, f ds mperms ids = .ok r ∧ id ∉ r := by
  refine ⟨rfl, PersonalNote.see, rfl, ?_⟩
  obtain ⟨r, hr, hiff⟩ := personalNote_see_filter ds mperms ids hread
  refine ⟨r, hr, fun h => ?_⟩
  have h2 := ((hiff id).mp h).2
  rw [hu] at h2
  exact hne (Except.ok.inj h2)

/-- Example for C5: the restricter for the superadmin with user id 1 does not
return note 2, which belongs to user 2. -/
theorem personalNote_superAdmin_witness :
    PersonalNote.SuperAdmin "B" = PersonalNote.Modes "B" ∧
    ∃ f, PersonalNote.SuperAdmin "A" = some f ∧
      ∃ r, f notesDs revokeAfter [1, 2, 3] = .ok r ∧ (2 : Int) ∉ r :=
  personalNote_superAdmin "B" notesDs revokeAfter [1, 2, 3] 2 2 (fun x hx => by
    have h : x = 1 ∨ x = 2 ∨ x = 3 := by simpa using hx
    rcases h with h | h | h <;> subst h
    · exact ⟨1, rfl⟩
    · exact ⟨2, rfl⟩
    · exact ⟨1, rfl⟩) rfl (by decide)

/-- C6: every id returned by `ChatMessage.see` and every id returned by
`PersonalNote.see` is one of the input ids. -/
theorem see_subset (ds : Fetch) (mperms : MeetingPermission) (ids : List Int) :
    (∀ r, ChatMessage.see ds mperms ids = .ok r → ∀ id ∈ r, id ∈ ids) ∧
    (∀ r, PersonalNote.see ds mperms ids = .ok r → ∀ id ∈ r, id ∈ ids) := by
  constructor
  · intro r h
    exact eachRelationField_subset ds.ChatMessage_ChatGroupID ids _
      (fun k grp a ha => seeGroup_subset ds mperms k grp a ha) r h
  · intro r h
    refine eachRelationField_subset ds.PersonalNote_UserID ids _ ?_ r h
    intro k grp a ha x hx
    by_cases hk : mperms.UserID = k
    · simp only [hk, if_true, Except.ok.injEq] at ha
      subst ha
      exact hx
    · simp only [hk, if_false, Except.ok.injEq] at ha
      subst ha
      cases hx

/-- Example for C6: both restricters answer the ids 1 and 2 with the list that
holds only 2. -/
theorem see_subset_witness :
    ChatMessage.see mixedDs strangerAfter [1, 2] = .ok [2] ∧
    (∀ id ∈ [(2 : Int)], id ∈ [(1 : Int), 2]) ∧
    PersonalNote.see mixedDs strangerAfter [1, 2] = .ok [2] ∧
    (∀ id ∈ [(2 : Int)], id ∈ [(1 : Int), 2]) :=
  ⟨rfl, (see_subset mixedDs strangerAfter [1, 2]).1 [2] rfl,
    rfl, (see_subset mixedDs strangerAfter [1, 2]).2 [2] rfl⟩

/-- C7: `ChatMessage.Modes` and `PersonalNote.Modes` give a FieldRestricter
exactly for the mode name `A`; for every other name, such as the empty string
and the lower case `a`, they give `nil`. -/
theorem modes_some_iff (m : String) :
    ((ChatMessage.Modes m).isSome = true ↔ m = "A") ∧
    ((PersonalNote.Modes m).isSome = true ↔ m = "A") ∧
    (m ≠ "A" → ChatMessage.Modes m = none ∧ PersonalNote.Modes m = none) ∧
    (ChatMessage.Modes "").isNone = true ∧ (ChatMessage.Modes "a").isNone = true ∧
    (PersonalNote.Modes "").isNone = true ∧ (PersonalNote.Modes "a").isNone = true := by
  refine ⟨?_, ?_, ?_, rfl, rfl, rfl, rfl⟩
  · by_cases h : m = "A" <;> simp [ChatMessage.Modes, h]
  · by_cases h : m = "A" <;> simp [PersonalNote.Modes, h]
  · intro h
    simp [ChatMessage.Modes, PersonalNote.Modes, h]

/-- Example for C7: the mode name `B` has no restricter. -/
theorem modes_some_iff_witness :
    (ChatMessage.Modes "B" = none ∧ PersonalNote.Modes "B" = none) :=
  (modes_some_iff "B").2.2.1 (by decide)

/-- C8: `ID` returns the id in the key.  When the restricter returns the
decimal text of a number `n` in the range of `int`, `ID` returns `n` and no
error; when the returned value is no decimal integer (an optional sign followed
by digits), `ID` returns the id 0 and an error. -/
theorem restrictedIDs_ID_decimal (i : RestrictedIDs) (key : String)
    (m : String → Option Bytes) (data : Bytes)
    (hr : i.r.Restrict i.user [key] = .ok m) (hk : m key = some data) :
    (∀ n : Int, minInt64 ≤ n → n ≤ maxInt64 → data = Itoa n → i.ID key = (n, none)) ∧
    (isDecimalInteger data = false → ∃ e, i.ID key = (0, some e)) := by
  have hd : i.decodedRestricter key = (data, none) := by
    simp [RestrictedIDs.decodedRestricter, hr, hk]
  constructor
  · intro n hlo hhi hn
    subst hn
    simp [RestrictedIDs.ID, hd, Atoi, parseIntAs_Itoa "Atoi" n hlo hhi]
  · intro hnot
    obtain ⟨v, e, he⟩ := atoi_error_of_not_decimal data hnot
    refine ⟨GoError.errorf "value in key %s is not an int, got: %v" [key, String.mk data], ?_⟩
    simp only [RestrictedIDs.ID, hd, he]

/-- Example for C8: the texts `42` and `-7` are read as ids; a number with a
fraction, a JSON array and a JSON string give the id 0 and an error. -/
theorem restrictedIDs_ID_decimal_witness :
    (RestrictedIDs.mk 1 (singleEntry "user/1/meeting_id" ['4', '2'])).ID "user/1/meeting_id"
      = (42, none) ∧
    (RestrictedIDs.mk 1 (singleEntry "user/1/meeting_id" ['-', '7'])).ID "user/1/meeting_id"
      = (-7, none) ∧
    (∃ e, (RestrictedIDs.mk 1 (singleEntry "user/1/meeting_id" ['1', '.', '5'])).ID
      "user/1/meeting_id" = (0, some e)) ∧
    (∃ e, (RestrictedIDs.mk 1 (singleEntry "user/1/meeting_id" ['[', '1', ']'])).ID
      "user/1/meeting_id" = (0, some e)) ∧
    (∃ e, (RestrictedIDs.mk 1 (singleEntry "user/1/meeting_id" [chQuote, '1', chQuote])).ID
      "user/1/meeting_id" = (0, some e)) :=
  ⟨(restrictedIDs_ID_decimal ⟨1, singleEntry "user/1/meeting_id" ['4', '2']⟩
      "user/1/meeting_id" _ ['4', '2'] rfl (by decide)).1 42 (by decide) (by decide) (by decide),
    (restrictedIDs_ID_decimal ⟨1, singleEntry "user/1/meeting_id" ['-', '7']⟩
      "user/1/meeting_id" _ ['-', '7'] rfl (by decide)).1 (-7) (by decide) (by decide)
      (by decide),
    (restrictedIDs_ID_decimal ⟨1, singleEntry "user/1/meeting_id" ['1', '.', '5']⟩
      "user/1/meeting_id" _ ['1', '.', '5'] rfl (by decide)).2 (by decide),
    (restrictedIDs_ID_decimal ⟨1, singleEntry "user/1/meeting_id" ['[', '1', ']']⟩
      "user/1/meeting_id" _ ['[', '1', ']'] rfl (by decide)).2 (by decide),
    (restrictedIDs_ID_decimal ⟨1, singleEntry "user/1/meeting_id" [chQuote, '1', chQuote]⟩
      "user/1/meeting_id" _ [chQuote, '1', chQuote] rfl (by decide)).2 (by decide)⟩

/-- C9 (as stated, refuted): the restricted value of
`motion/1/lead_motion_id` is the JSON literal `null`; `ID` returns the id 0
together with an error. -/
theorem restrictedIDs_ID_null_counterexample :
    (RestrictedIDs.mk 1 (singleEntry "motion/1/lead_motion_id" nullText)).ID
      "motion/1/lead_motion_id" =
      (0, some (GoError.errorf "value in key %s is not an int, got: %v"
        ["motion/1/lead_motion_id", "null"])) := by
  decide

/-- C9 (amended): when the restricted value of a key is the JSON literal
`null`, `ID` fails: it returns the id 0 together with the error that the value
in the key is not an int (an error other than `ErrUnknownKey`). -/
theorem restrictedIDs_ID_null (i : RestrictedIDs) (key : String)
    (m : String → Option Bytes)
    (hr : i.r.Restrict i.user [key] = .ok m) (hk : m key = some nullText) :
    i.ID key =
      (0, some (GoError.errorf "value in key %s is not an int, got: %v" [key, "null"])) ∧
    (i.ID key).2 ≠ some ErrUnknownKey := by
  have hd : i.decodedRestricter key = (nullText, none) := by
    simp [RestrictedIDs.decodedRestricter, hr, hk]
  have ha : Atoi nullText = (0, some (GoError.numSyntaxErr "Atoi" "null")) := by decide
  have hid : i.ID key =
      (0, some (GoError.errorf "value in key %s is not an int, got: %v" [key, "null"])) := by
    simp only [RestrictedIDs.ID, hd, ha]
    rfl
  refine ⟨hid, ?_⟩
  rw [hid]
  simp [ErrUnknownKey]

/-- Example for C9 (amended): the value `null` of `topic/5/agenda_item_id` makes
`ID` fail. -/
theorem restrictedIDs_ID_null_witness :
    (RestrictedIDs.mk 3 (singleEntry "topic/5/agenda_item_id" nullText)).ID
      "topic/5/agenda_item_id" =
      (0, some (GoError.errorf "value in key %s is not an int, got: %v"
        ["topic/5/agenda_item_id", "null"])) :=
  (restrictedIDs_ID_null ⟨3, singleEntry "topic/5/agenda_item_id" nullText⟩
    "topic/5/agenda_item_id" _ rfl (by decide)).1

/-- C10 (as stated, refuted): the restricted value of `user/1/group_ids` is
the JSON literal `null`, which is not a JSON array; `IDList` returns the empty
list and no error. -/
theorem restrictedIDs_IDList_counterexample :
    isJsonArrayOfIntOrNull nullText = false ∧
    (RestrictedIDs.mk 1 (singleEntry "user/1/group_ids" nullText)).IDList "user/1/group_ids"
      = ([], none) := by
  decide

/-- C10 (amended): `IDList` returns the ids in the key.  When the restricter
returns the JSON array encoding of a list `xs` of numbers in the range of
`int`, `IDList` returns `xs` in the same order and no error; for the JSON
literal `null` it returns the empty list and no error; for every value that is
neither `null` nor a JSON array of integers and `null`s it returns an error. -/
theorem restrictedIDs_IDList (i : RestrictedIDs) (key : String)
    (m : String → Option Bytes) (data : Bytes)
    (hr : i.r.Restrict i.user [key] = .ok m) (hk : m key = some data) :
    (∀ xs : List Int, (∀ x ∈ xs, minInt64 ≤ x ∧ x ≤ maxInt64) → data = MarshalIntSlice xs →
      i.IDList key = (xs, none)) ∧
    (isJsonNull data = true → i.IDList key = ([], none)) ∧
    (isJsonNull data = false → isJsonArrayOfIntOrNull data = false →
      ∃ e, i.IDList key = ([], some e)) := by
  have hd : i.decodedRestricter key = (data, none) := by
    simp [RestrictedIDs.decodedRestricter, hr, hk]
  refine ⟨?_, ?_, ?_⟩
  · intro xs hx hdata
    subst hdata
    simp only [RestrictedIDs.IDList, hd, UnmarshalIntSlice_MarshalIntSlice xs hx]
  · intro hnull
    simp only [RestrictedIDs.IDList, hd, UnmarshalIntSlice_null data hnull]
  · intro h1 h2
    cases hu : UnmarshalIntSlice data with
    | mk v oe =>
      cases oe with
      | some e =>
        refine ⟨GoError.wrapf "can not read ids from value `%s`: %w" [String.mk data] e, ?_⟩
        simp only [RestrictedIDs.IDList, hd, hu]
      | none =>
        have hok := (UnmarshalIntSlice_ok_iff data).mp (by rw [hu])
        rw [h1, h2] at hok
        simp at hok

/-- Example for C10 (amended): the encoding of `[3, -1, 20]` is read back, and an
array with a fraction gives an error. -/
theorem restrictedIDs_IDList_witness :
    (RestrictedIDs.mk 1 (singleEntry "user/1/group_ids" (MarshalIntSlice [3, -1, 20]))).IDList
      "user/1/group_ids" = ([3, -1, 20], none) ∧
    (∃ e, (RestrictedIDs.mk 1 (singleEntry "user/1/group_ids" ['[', '1', '.', '5', ']'])).IDList
      "user/1/group_ids" = ([], some e)) :=
  ⟨(restrictedIDs_IDList ⟨1, singleEntry "user/1/group_ids" (MarshalIntSlice [3, -1, 20])⟩
      "user/1/group_ids" _ (MarshalIntSlice [3, -1, 20]) rfl (by decide)).1 [3, -1, 20]
      (by decide) rfl,
    (restrictedIDs_IDList ⟨1, singleEntry "user/1/group_ids" ['[', '1', '.', '5', ']']⟩
      "user/1/group_ids" _ ['[', '1', '.', '5', ']'] rfl (by decide)).2.2
      (by decide) (by decide)⟩

/-- C11: the content of a projection that exists and can be read is rendered by
the slide renderer keyed by its `type` when the type is present, and otherwise
by the one keyed by the collection part of its `content_object_id`.  With the
slides of `testSlides`: for `content_object_id` `test_model/1` and no type the
content is the object with `collection` `test_model` and `value` `test_model`,
and for the type `test1` it is the object with `collection` `test1` and `value`
`abc`, whatever the `content_object_id` is. -/
theorem projection_slide_selection (ds : Datastore) (slides : SlideStore) (id : Int)
    (v : Bytes) (p : Projection)
    (hid : ds (projectionKey id "id") = some v)
    (hread : readProjection ds id = (p, none)) :
    (p.Typ ≠ [] → projectionContent ds slides id = some (renderSlide ds slides p.Typ p)) ∧
    (p.Typ = [] → ∀ coll, collectionPart p.ContentObjectID = some coll →
      projectionContent ds slides id = some (renderSlide ds slides coll p)) ∧
    (∀ marshal, p.Typ = [] → p.ContentObjectID = "test_model/1".toList →
      ds "test_model/1/field".toList = none →
      projectionContent ds (testSlides marshal) id =
        some (collectionValue "test_model" "test_model")) ∧
    (∀ marshal, p.Typ = "test1".toList →
      projectionContent ds (testSlides marshal) id = some (collectionValue "test1" "abc")) := by
  refine ⟨?_, ?_, ?_, ?_⟩
  · intro ht
    exact projectionContent_render ds slides id v p p.Typ hid hread
      (by simp [Projection.slideName, ht])
  · intro ht coll hc
    exact projectionContent_render ds slides id v p coll hid hread
      (by simp [Projection.slideName, ht, hc])
  · intro marshal ht hco hfield
    have hname : p.slideName = some "test_model".toList := by
      simp only [Projection.slideName, ht, hco]
      decide
    rw [projectionContent_render ds (testSlides marshal) id v p _ hid hread hname]
    obtain ⟨s, hs, hrun⟩ := getSlider_test_model marshal
    simp only [renderSlide, hs, hrun ds p hfield]
    rfl
  · intro marshal ht
    have hne : "test1".toList ≠ [] := by decide
    have hname : p.slideName = some "test1".toList := by
      simp only [Projection.slideName, ht, hne, ne_eq, not_false_eq_true, if_true]
    rw [projectionContent_render ds (testSlides marshal) id v p _ hid hread hname]
    obtain ⟨s, hs, hrun⟩ := getSlider_test1 marshal
    simp only [renderSlide, hs, hrun ds p]
    rfl

/-- Example for C11: the datastores of `TestProjectionFromContentObject` and of
`TestProjectionFromType`. -/
theorem projection_slide_selection_witness :
    projectionContent dsFromContentObject (testSlides noMarshal) 1 =
      some (collectionValue "test_model" "test_model") ∧
    projectionContent dsFromType (testSlides noMarshal) 1 =
      some (collectionValue "test1" "abc") :=
  ⟨(projection_slide_selection dsFromContentObject (testSlides noMarshal) 1 ['1']
      ⟨1, [], "test_model/1".toList, 0, none⟩ rfl rfl).2.2.1 noMarshal rfl rfl rfl,
    (projection_slide_selection dsFromType (testSlides noMarshal) 1 ['1']
      ⟨1, "test1".toList, "meeting/1".toList, 0, none⟩ rfl rfl).2.2.2 noMarshal rfl⟩

/-- C12: on a fetcher without pending requests whose datastore answers, a
required accessor at an id whose key does not exist gives through `Value`, and
through `Lazy` followed by `Execute`, an error that is a `DoesNotExistError`;
the fetcher is not poisoned: a following `Value` on a key that exists and
decodes gives its value and no error. -/
theorem fetch_required_absent (f : Dsfetch.Fetch) (data : Datastore) (a : Dsfetch.Accessor)
    (id : Int) (hreq : f.requested = []) (hget : ∀ keys, f.getter keys = .ok data)
    (hrequired : a.required = true) (habsent : data (a.key id) = none) :
    (∃ e, (a.Value id f).1 = (a.zero, some e) ∧ e.isDoesNotExist = true) ∧
    (∃ e, (a.Lazy id f).Execute.1.2 = some e ∧ e.isDoesNotExist = true) ∧
    (∀ (b : Dsfetch.Accessor) (id2 : Int) (v : Bytes) (sv : Dsfetch.SlotValue),
      data (b.key id2) = some v → b.decode v = (sv, none) →
      (b.Value id2 (a.Value id f).2).1 = (sv, none)) := by
  have hexec := execute_single f data a id hreq hget
  have hone : Dsfetch.Request.execute data ⟨a.key id, a.required, a.zero, a.decode⟩ =
      (a.zero, some (GoError.doesNotExist (String.mk (a.key id)))) := by
    simp [Dsfetch.Request.execute, habsent, hrequired]
  rw [hone] at hexec
  have hval : a.Value id f = ((a.zero, some (GoError.doesNotExist (String.mk (a.key id)))),
      { f with requested := [], touched := f.touched ++ [a.key id] }) := by
    simp only [Dsfetch.Accessor.Value, hexec]
  refine ⟨⟨GoError.doesNotExist (String.mk (a.key id)), by rw [hval], rfl⟩,
    ⟨GoError.doesNotExist (String.mk (a.key id)), by rw [hexec], rfl⟩, ?_⟩
  intro b id2 v sv hv hdec
  rw [hval]
  have hexec2 := execute_single
    { f with requested := [], touched := f.touched ++ [a.key id] } data b id2 rfl hget
  have htwo : Dsfetch.Request.execute data ⟨b.key id2, b.required, b.zero, b.decode⟩ =
      (sv, none) := by
    simp [Dsfetch.Request.execute, hv, hdec]
  rw [htwo] at hexec2
  simp only [Dsfetch.Accessor.Value, hexec2]
  rfl

/-- Example for C12: `TestRequestTwoWithErrors`, the title of topic 2 does not
exist and the title of topic 1 is then read from the same fetcher. -/
theorem fetch_required_absent_witness :
    (∃ e, (Dsfetch.Topic_Title.Value 2 (Dsfetch.New Dsfetch.stubTopic)).1 =
      (Dsfetch.SlotValue.str [], some e) ∧ e.isDoesNotExist = true) ∧
    (Dsfetch.Topic_Title.Value 1
      (Dsfetch.Topic_Title.Value 2 (Dsfetch.New Dsfetch.stubTopic)).2).1 =
      (Dsfetch.SlotValue.str "foo".toList, none) :=
  ⟨(fetch_required_absent (Dsfetch.New Dsfetch.stubTopic) _ Dsfetch.Topic_Title 2 rfl
      (fun _ => rfl) rfl (by decide)).1,
    (fetch_required_absent (Dsfetch.New Dsfetch.stubTopic) _ Dsfetch.Topic_Title 2 rfl
      (fun _ => rfl) rfl (by decide)).2.2 Dsfetch.Topic_Title 1 (quoted "foo")
      (Dsfetch.SlotValue.str "foo".toList) (by decide) (by decide)⟩

/-- C13 (as stated, refuted): the restricter returns `user/1/group_ids` with a
value of length zero; `IDList`, `GenericIDs` and `Template` each return an
error that wraps the syntax error `unexpected end of JSON input` of
`json.Unmarshal`. -/
theorem restrictedIDs_empty_value_counterexample :
    (RestrictedIDs.mk 1 (singleEntry "user/1/group_ids" [])).IDList "user/1/group_ids" =
      ([], some (GoError.wrapf "can not read ids from value `%s`: %w" [""]
        (GoError.jsonSyntaxErr (some "unexpected end of JSON input")))) ∧
    (RestrictedIDs.mk 1 (singleEntry "user/1/group_ids" [])).GenericIDs "user/1/group_ids" =
      ([], some (GoError.wrapf "can not decode generic-list value from restricter: %w" []
        (GoError.jsonSyntaxErr (some "unexpected end of JSON input")))) ∧
    (RestrictedIDs.mk 1 (singleEntry "user/1/group_ids" [])).Template "user/1/group_ids" =
      ([], some (GoError.wrapf "can not decode generic-list value from restricter: %w" []
        (GoError.jsonSyntaxErr (some "unexpected end of JSON input")))) := by
  decide

/-- C13 (amended): when the restricter returns the requested key with the JSON
literal `null` as value, `IDList`, `GenericIDs` and `Template` return the empty
list and no error; when it returns the key with a value of length zero, each of
them returns the empty list together with the syntax error `unexpected end of
JSON input` of `json.Unmarshal`, wrapped by the message of the method. -/
theorem restrictedIDs_null_or_empty_value (i : RestrictedIDs) (key : String)
    (m : String → Option Bytes) (data : Bytes)
    (hr : i.r.Restrict i.user [key] = .ok m) (hk : m key = some data) :
    (isJsonNull data = true →
      i.IDList key = ([], none) ∧ i.GenericIDs key = ([], none) ∧
      i.Template key = ([], none)) ∧
    (data = [] →
      i.IDList key =
        ([], some (GoError.wrapf "can not read ids from value `%s`: %w" [""]
          (GoError.jsonSyntaxErr (some "unexpected end of JSON input")))) ∧
      i.GenericIDs key =
        ([], some (GoError.wrapf "can not decode generic-list value from restricter: %w" []
          (GoError.jsonSyntaxErr (some "unexpected end of JSON input")))) ∧
      i.Template key =
        ([], some (GoError.wrapf "can not decode generic-list value from restricter: %w" []
          (GoError.jsonSyntaxErr (some "unexpected end of JSON input"))))) := by
  have hd : i.decodedRestricter key = (data, none) := by
    simp [RestrictedIDs.decodedRestricter, hr, hk]
  constructor
  · intro hnull
    refine ⟨?_, ?_, ?_⟩
    · simp only [RestrictedIDs.IDList, hd, UnmarshalIntSlice_null data hnull]
    · simp only [RestrictedIDs.GenericIDs, hd, UnmarshalStringSlice_null data hnull]
    · simp only [RestrictedIDs.Template, RestrictedIDs.GenericIDs, hd,
        UnmarshalStringSlice_null data hnull]
  · intro hempty
    subst hempty
    have h1 : UnmarshalIntSlice [] =
        ([], some (GoError.jsonSyntaxErr (some "unexpected end of JSON input"))) := by
      decide
    have h2 : UnmarshalStringSlice [] =
        ([], some (GoError.jsonSyntaxErr (some "unexpected end of JSON input"))) := by
      decide
    have h3 : String.mk [] = "" := rfl
    refine ⟨?_, ?_, ?_⟩
    · simp only [RestrictedIDs.IDList, hd, h1, h3]
    · simp only [RestrictedIDs.GenericIDs, hd, h2]
    · simp only [RestrictedIDs.Template, RestrictedIDs.GenericIDs, hd, h2]

/-- Example for C13 (amended): the value `null` of `motion/3/tag_ids` is read
as the empty list, the value of length zero of `motion/3/tag_ids` is the
wrapped syntax error. -/
theorem restrictedIDs_null_or_empty_value_witness :
    ((RestrictedIDs.mk 1 (singleEntry "motion/3/tag_ids" nullText)).IDList "motion/3/tag_ids" =
        ([], none) ∧
      (RestrictedIDs.mk 1 (singleEntry "motion/3/tag_ids" nullText)).GenericIDs
        "motion/3/tag_ids" = ([], none) ∧
      (RestrictedIDs.mk 1 (singleEntry "motion/3/tag_ids" nullText)).Template
        "motion/3/tag_ids" = ([], none)) ∧
    (RestrictedIDs.mk 1 (singleEntry "motion/3/tag_ids" [])).IDList "motion/3/tag_ids" =
      ([], some (GoError.wrapf "can not read ids from value `%s`: %w" [""]
        (GoError.jsonSyntaxErr (some "unexpected end of JSON input")))) :=
  ⟨(restrictedIDs_null_or_empty_value ⟨1, singleEntry "motion/3/tag_ids" nullText⟩
      "motion/3/tag_ids" _ nullText rfl (by decide)).1 (by decide),
    ((restrictedIDs_null_or_empty_value ⟨1, singleEntry "motion/3/tag_ids" []⟩
      "motion/3/tag_ids" _ [] rfl (by decide)).2 rfl).1⟩

/-- C14: for every restricter, in every state of it, and for every user and
key, `Template` gives the same value, the same error and the same state of the
restricter afterwards as `GenericIDs`.  The state afterwards is the state after
one call `Restrict(ctx, user, [key])`: a restricter that records its calls has
recorded exactly this one call more.  The value and the error are made from the
answer of that call: an error of the call is wrapped, a result without the key
is `ErrUnknownKey`, and a token list written as a JSON array of strings is
returned as the list of these strings.  They are the value and the error that
the methods without state give on the answers of the restricter in the state
before, where `Template` and `GenericIDs` agree as well. -/
theorem template_eq_genericIDs {σ : Type} (i : Traced.RestrictedIDs σ) (key : String) (s : σ) :
    i.Template key s = i.GenericIDs key s ∧
    (i.Template key s).2 = (i.r.Restrict i.user [key] s).2 ∧
    (∀ (r : Restricter) (log : List (Int × List String)),
      ((Traced.RestrictedIDs.mk i.user (Traced.logging r)).Template key log).2 =
        log ++ [(i.user, [key])] ∧
      ((Traced.RestrictedIDs.mk i.user (Traced.logging r)).GenericIDs key log).2 =
        log ++ [(i.user, [key])] ∧
      ((Traced.RestrictedIDs.mk i.user (Traced.logging r)).Template key log).1 =
        (RestrictedIDs.mk i.user r).Template key) ∧
    (i.Template key s).1 = (RestrictedIDs.mk i.user (Traced.frozen i.r s)).Template key ∧
    (∀ j : RestrictedIDs, j.Template key = j.GenericIDs key) ∧
    (∀ e, (i.r.Restrict i.user [key] s).1 = .error e →
      (i.Template key s).1 =
        ([], some (GoError.wrapf "can not restrict key %s: %w" [key] e))) ∧
    (∀ m, (i.r.Restrict i.user [key] s).1 = .ok m → m key = none →
      (i.Template key s).1 = ([], some ErrUnknownKey)) ∧
    (∀ m ts, (i.r.Restrict i.user [key] s).1 = .ok m → m key = some (jsonStringArray ts) →
      (∀ t ∈ ts, ∀ c ∈ t, simpleChar c = true) →
      (i.Template key s).1 = (ts, none)) := by
  obtain ⟨hstate, hpure⟩ := traced_GenericIDs i key s
  have hfrozen : (Traced.frozen i.r s).Restrict i.user [key] =
      (i.r.Restrict i.user [key] s).1 := rfl
  refine ⟨rfl, hstate, ?_, hpure, fun _ => rfl, ?_, ?_, ?_⟩
  · intro r log
    exact ⟨(traced_GenericIDs ⟨i.user, Traced.logging r⟩ key log).1,
      (traced_GenericIDs ⟨i.user, Traced.logging r⟩ key log).1,
      (traced_GenericIDs ⟨i.user, Traced.logging r⟩ key log).2⟩
  · intro e he
    rw [← hfrozen] at he
    show (i.GenericIDs key s).1 = _
    rw [hpure]
    simp only [RestrictedIDs.GenericIDs, RestrictedIDs.decodedRestricter, he]
  · intro m hm hk
    rw [← hfrozen] at hm
    show (i.GenericIDs key s).1 = _
    rw [hpure]
    simp only [RestrictedIDs.GenericIDs, RestrictedIDs.decodedRestricter, hm, hk]
  · intro m ts hm hk hs
    rw [← hfrozen] at hm
    show (i.GenericIDs key s).1 = _
    rw [hpure]
    simp only [RestrictedIDs.GenericIDs, RestrictedIDs.decodedRestricter, hm, hk,
      UnmarshalStringSlice_jsonStringArray ts hs]

/-- Example for C14: a restricter that counts its calls answers the first call
with the token list of `user/1/group_$_ids`, the tokens `1` and `2`, and every
later call with an error; `Template` and `GenericIDs` return the two tokens and
leave the count at one. -/
theorem template_eq_genericIDs_witness :
    (Traced.RestrictedIDs.mk 1 (Traced.firstThen
      (.ok (fun k => if k = "user/1/group_$_ids" then some (jsonStringArray [['1'], ['2']])
        else none))
      (.error (GoError.other "second call")))).Template "user/1/group_$_ids" 0 =
      (([['1'], ['2']], none), 1) ∧
    (Traced.RestrictedIDs.mk 1 (Traced.firstThen
      (.ok (fun k => if k = "user/1/group_$_ids" then some (jsonStringArray [['1'], ['2']])
        else none))
      (.error (GoError.other "second call")))).GenericIDs "user/1/group_$_ids" 0 =
      (([['1'], ['2']], none), 1) :=
  have h := template_eq_genericIDs (Traced.RestrictedIDs.mk 1 (Traced.firstThen
      (.ok (fun k => if k = "user/1/group_$_ids" then some (jsonStringArray [['1'], ['2']])
        else none))
      (.error (GoError.other "second call")))) "user/1/group_$_ids" 0
  have hv := h.2.2.2.2.2.2.2 _ [['1'], ['2']] rfl (by decide) (by decide)
  have ht : (Traced.RestrictedIDs.mk 1 (Traced.firstThen
      (.ok (fun k => if k = "user/1/group_$_ids" then some (jsonStringArray [['1'], ['2']])
        else none))
      (.error (GoError.other "second call")))).Template "user/1/group_$_ids" 0 =
      (([['1'], ['2']], none), 1) := Prod.ext hv h.2.1
  ⟨ht, h.1.symm.trans ht⟩

/-- C15 (the code at the failing input): for meeting 2 `withPerms` writes the
group 1337, not the group 2337, into `user/1/group_$2_ids` and stores the
permissions under `group/1337/permissions`; nothing is stored for group 2337.
With the request user 2 it still writes to the keys of user 1, and for an empty
list of permissions the stored text is `]`, which is not valid JSON. -/
theorem withPerms_group_1337 :
    (∃ td, withPerms plainEnv 2 [ChatCanManage] emptyTestData = .ok td ∧
      td.data "user/1/group_$2_ids".toList = some (MarshalIntSlice [1337]) ∧
      MarshalIntSlice [1337] ≠ MarshalIntSlice [2 * 1000 + 337] ∧
      td.data "group/1337/id".toList = some ['1', '3', '3', '7'] ∧
      td.data "group/1337/permissions".toList = some ('[' :: (quoted "chat.can_manage" ++ [']'])) ∧
      td.data "group/2337/id".toList = none ∧
      td.data "group/2337/permissions".toList = none) ∧
    (∃ td, withPerms plainEnv 2 [ChatCanManage] (withRequestUser 2 emptyTestData) = .ok td ∧
      td.requestUserID = 2 ∧
      td.data "user/1/group_$2_ids".toList = some (MarshalIntSlice [1337]) ∧
      td.data "user/2/group_$2_ids".toList = none) ∧
    (∃ td, withPerms plainEnv 2 [] emptyTestData = .ok td ∧
      td.data "group/1337/permissions".toList = some [']'] ∧
      jsonParse [']'] = none) :=
  ⟨⟨_, rfl, by decide, by decide, by decide, by decide, by decide, by decide⟩,
    ⟨_, rfl, rfl, by decide, by decide⟩,
    ⟨_, rfl, by decide, rfl⟩⟩

end Autoupdate
